import Mathlib

/-!
Verification of the chess rules engine in `ChessEngine.py`.

The engine is shallowly embedded: Python 2-character piece codes become the

inductive `Cell`; Python list indexing (which accepts indices `-len .. len-1`
and raises `IndexError` otherwise) becomes `Option`-valued access, with the
`none` branch standing for `IndexError`; methods that mutate `GameState`
become explicit state-passing functions returning `Option`.
-/

/-- Piece color: the first character of a 2-character piece code
(`w` or `b`). -/
inductive PColor : Type
  | white
  | black
deriving DecidableEq, Repr

/-- Piece kind: the second character of a 2-character piece code
(`p`, `R`, `N`, `B`, `Q`, `K`). -/
inductive PKind : Type
  | pawn
  | rook
  | knight
  | bishop
  | queen
  | king
deriving DecidableEq, Repr

/-- One board cell: `"--"` (empty) or a 2-character piece code.  The source
stores strings; color and kind are the two characters, independently
queryable. -/
inductive Cell : Type
  | empty
  | piece (color : PColor) (kind : PKind)
deriving DecidableEq, Repr

/-- The test `cell[0] == color-char` of the source: true iff the cell is a
piece of the given color (the first character of `"--"` is `'-'`, which is
neither color character). -/
def Cell.hasColor : Cell → PColor → Bool
  | Cell.empty, _ => false
  | Cell.piece c _, c' => c = c'

def wp : Cell := Cell.piece PColor.white PKind.pawn

def wR : Cell := Cell.piece PColor.white PKind.rook

def wN : Cell := Cell.piece PColor.white PKind.knight

def wB : Cell := Cell.piece PColor.white PKind.bishop

def wQ : Cell := Cell.piece PColor.white PKind.queen

def wKing : Cell := Cell.piece PColor.white PKind.king

def bp : Cell := Cell.piece PColor.black PKind.pawn

def bR : Cell := Cell.piece PColor.black PKind.rook

def bN : Cell := Cell.piece PColor.black PKind.knight

def bB : Cell := Cell.piece PColor.black PKind.bishop

def bQ : Cell := Cell.piece PColor.black PKind.queen

def bKing : Cell := Cell.piece PColor.black PKind.king

/-- `Board` is the 8x8 2d list `self.board` of the source. -/
abbrev Board : Type := List (List Cell)

/-- Python list index resolution: an index `i` with `0 ≤ i < len` is used
as is, `-len ≤ i < 0` wraps to `len + i`, anything else raises
`IndexError` (`none`). -/
def pyIdx (len : Nat) (i : Int) : Option Nat :=
  if 0 ≤ i then (if i < (len : Int) then some i.toNat else none)
  else (if 0 ≤ i + (len : Int) then some (i + (len : Int)).toNat else none)

/-- Python `l[i]` on a list. -/
def pyGetL {α : Type} (l : List α) (i : Int) : Option α :=
  match pyIdx l.length i with
  | some n => l.get? n
  | none => none

/-- Python `l[i] = a` on a list (as a function returning the new list). -/
def pySetL {α : Type} (l : List α) (i : Int) (a : α) : Option (List α) :=
  match pyIdx l.length i with
  | some n => some (l.set n a)
  | none => none

/-- Python `board[r][c]`. -/
def pyGet (b : Board) (r c : Int) : Option Cell :=
  match pyGetL b r with
  | some row => pyGetL row c
  | none => none

/-- Python `board[r][c] = x`. -/
def pySet (b : Board) (r c : Int) (x : Cell) : Option Board :=
  match pyIdx (List.length b) r with
  | some n =>
    match List.get? b n with
    | some row =>
      match pySetL row c x with
      | some row2 => some (List.set b n row2)
      | none => none
    | none => none
  | none => none

/-- The board is an 8x8 grid (true of the initial board and preserved by
every `pySet`). -/
def dims8 (b : Board) : Bool :=
  List.length b == 8 && List.all b (fun row => row.length == 8)

/-- The `Move` class: four coordinates and the two piece snapshots taken at
construction time. -/
structure Move : Type where
  startRow : Int
  startCol : Int
  endRow : Int
  endCol : Int
  pieceMoved : Cell
  pieceCaptured : Cell
deriving DecidableEq, Repr

/-- The derived identifier `self.moveID` of `Move.__init__`. -/
def Move.moveID (m : Move) : Int :=
  m.startRow * 1000 + m.startCol * 100 + m.endRow * 10 + m.endCol

/-- `Move.__eq__`: identifier-based equality (both operands here are always
moves, so the `isinstance` guard is always passed). -/
def moveBeq (m n : Move) : Bool :=
  m.moveID == n.moveID

/-- `Move.__init__(startSq, endSq, board)`: snapshots `pieceMoved` and
`pieceCaptured` from the board at construction time; the board reads can
raise. -/
def mkMove (startSq endSq : Int × Int) (b : Board) : Option Move :=
  match pyGet b startSq.1 startSq.2, pyGet b endSq.1 endSq.2 with
  | some pm, some pc =>
    some ⟨startSq.1, startSq.2, endSq.1, endSq.2, pm, pc⟩
  | _, _ => none

/-- The `GameState` fields.  `moveLog` appends at the end (a stack). -/
structure GameState : Type where
  board : Board
  whiteToMove : Bool
  moveLog : List Move
  whiteKingLocation : Int × Int
  blackKingLocation : Int × Int
  checkMate : Bool
  staleMate : Bool
deriving DecidableEq, Repr

/-- The initial board of `GameState.__init__`. -/
def initialBoard : Board :=
  [[bR, bN, bB, bQ, bKing, bB, bN, bR],
   [bp, bp, bp, bp, bp, bp, bp, bp],
   [Cell.empty, Cell.empty, Cell.empty, Cell.empty, Cell.empty, Cell.empty, Cell.empty, Cell.empty],
   [Cell.empty, Cell.empty, Cell.empty, Cell.empty, Cell.empty, Cell.empty, Cell.empty, Cell.empty],
   [Cell.empty, Cell.empty, Cell.empty, Cell.empty, Cell.empty, Cell.empty, Cell.empty, Cell.empty],
   [Cell.empty, Cell.empty, Cell.empty, Cell.empty, Cell.empty, Cell.empty, Cell.empty, Cell.empty],
   [wp, wp, wp, wp, wp, wp, wp, wp],
   [wR, wN, wB, wQ, wKing, wB, wN, wR]]

/-- The freshly constructed `GameState()`. -/
def initialGameState : GameState :=
  { board := initialBoard
    whiteToMove := true
    moveLog := []
    whiteKingLocation := (7, 4)
    blackKingLocation := (0, 4)
    checkMate := false
    staleMate := false }

/-- `GameState.makeMove`: empty the start square, put `pieceMoved` on the
end square, log the move, swap players, and update the king location if a
king moved (`elif` chain; the two king codes are distinct, so two
independent conditionals are equivalent). -/
def makeMove (gs : GameState) (move : Move) : Option GameState :=
  match pySet gs.board move.startRow move.startCol Cell.empty with
  | none => none
  | some b1 =>
    match pySet b1 move.endRow move.endCol move.pieceMoved with
    | none => none
    | some b2 =>
      some { board := b2
             whiteToMove := !gs.whiteToMove
             moveLog := gs.moveLog ++ [move]
             whiteKingLocation :=
               if move.pieceMoved = wKing then (move.endRow, move.endCol)
               else gs.whiteKingLocation
             blackKingLocation :=
               if move.pieceMoved = bKing then (move.endRow, move.endCol)
               else gs.blackKingLocation
             checkMate := gs.checkMate
             staleMate := gs.staleMate }

/-- `GameState.undoMove`: no-op on an empty log; otherwise pop the last
move, put `pieceMoved` back on the start square and `pieceCaptured` back on
the end square, switch turns back, and restore the king location if a king
had moved. -/
def undoMove (gs : GameState) : Option GameState :=
  match gs.moveLog.getLast? with
  | none => some gs
  | some move =>
    match pySet gs.board move.startRow move.startCol move.pieceMoved with
    | none => none
    | some b1 =>
      match pySet b1 move.endRow move.endCol move.pieceCaptured with
      | none => none
      | some b2 =>
        some { board := b2
               whiteToMove := !gs.whiteToMove
               moveLog := gs.moveLog.dropLast
               whiteKingLocation :=
                 if move.pieceMoved = wKing then (move.startRow, move.startCol)
                 else gs.whiteKingLocation
               blackKingLocation :=
                 if move.pieceMoved = bKing then (move.startRow, move.startCol)
                 else gs.blackKingLocation
               checkMate := gs.checkMate
               staleMate := gs.staleMate }

/-- The forward-advance phase of `getPawnMoves`: the square one step
ahead (`dir` is -1 for white, +1 for black) is read unconditionally; if it
is empty the single advance is appended, and from the start rank (row 6
for white, row 1 for black) the double advance is appended as well when
the second square ahead is also empty. -/
def pawnFwd (b : Board) (dir startRank : Int) (row col : Int)
    (moves : List Move) : Option (List Move) :=
  match pyGet b (row + dir) col with
  | none => none
  | some fwd =>
    if fwd = Cell.empty then
      match mkMove (row, col) (row + dir, col) b with
      | none => none
      | some m =>
        if row = startRank then
          match pyGet b (row + 2 * dir) col with
          | none => none
          | some fwd2 =>
            if fwd2 = Cell.empty then
              match mkMove (row, col) (row + 2 * dir, col) b with
              | none => none
              | some m2 => some (moves ++ [m] ++ [m2])
            else some (moves ++ [m])
        else some (moves ++ [m])
    else some moves

/-- The capture-to-the-left phase of `getPawnMoves`: guarded by
`col - 1 >= 0`, appends the diagonal capture when the target holds an
enemy piece. -/
def pawnCapL (b : Board) (enemy : PColor) (dir : Int) (row col : Int)
    (moves : List Move) : Option (List Move) :=
  if 0 ≤ col - 1 then
    match pyGet b (row + dir) (col - 1) with
    | none => none
    | some sq =>
      if sq.hasColor enemy then
        match mkMove (row, col) (row + dir, col - 1) b with
        | none => none
        | some m => some (moves ++ [m])
      else some moves
  else some moves

/-- The capture-to-the-right phase of `getPawnMoves`: guarded by
`col + 1 <= 7`. -/
def pawnCapR (b : Board) (enemy : PColor) (dir : Int) (row col : Int)
    (moves : List Move) : Option (List Move) :=
  if col + 1 ≤ 7 then
    match pyGet b (row + dir) (col + 1) with
    | none => none
    | some sq =>
      if sq.hasColor enemy then
        match mkMove (row, col) (row + dir, col + 1) b with
        | none => none
        | some m => some (moves ++ [m])
      else some moves
  else some moves

/-- `GameState.getPawnMoves(row, col, moves)`.  The generators read only
`self.board` and `self.whiteToMove`, which are passed explicitly; the
accumulator list is passed and the extended list returned.  The white and
black branches of the source are textually parallel and are embedded by
one phase helper each, instantiated with the marching direction, start
rank and enemy color.  Note that the row one step ahead is read before
any bound check (only the capture columns are bound-checked in the
source). -/
def getPawnMoves (b : Board) (w : Bool) (row col : Int) (moves : List Move) :
    Option (List Move) :=
  if w then
    match pawnFwd b (-1) 6 row col moves with
    | none => none
    | some moves1 =>
      match pawnCapL b PColor.black (-1) row col moves1 with
      | none => none
      | some moves2 => pawnCapR b PColor.black (-1) row col moves2
  else
    match pawnFwd b 1 1 row col moves with
    | none => none
    | some moves1 =>
      match pawnCapL b PColor.white 1 row col moves1 with
      | none => none
      | some moves2 => pawnCapR b PColor.white 1 row col moves2

/-- The inner `for i in range(1, 8)` loop of `getRookMoves` and
`getBishopMoves` (their bodies are textually identical in the source; only
the direction tuples differ): walk outward along direction `d`, append
empty squares and continue, append the first enemy square and stop, stop
without appending on a friendly square or at the board edge. -/
def scanDir (b : Board) (enemy : PColor) (row col : Int) (d : Int × Int) :
    List Nat → List Move → Option (List Move)
  | [], moves => some moves
  | i :: rest, moves =>
    let endRow := row + d.1 * (i : Int)
    let endCol := col + d.2 * (i : Int)
    if 0 ≤ endRow ∧ endRow < 8 ∧ 0 ≤ endCol ∧ endCol < 8 then
      match pyGet b endRow endCol with
      | none => none
      | some endPiece =>
        if endPiece = Cell.empty then
          match mkMove (row, col) (endRow, endCol) b with
          | none => none
          | some m => scanDir b enemy row col d rest (moves ++ [m])
        else if endPiece.hasColor enemy then
          match mkMove (row, col) (endRow, endCol) b with
          | none => none
          | some m => some (moves ++ [m])
        else some moves
    else some moves

/-- The outer `for d in directions` loop of the sliding-piece generators. -/
def scanDirs (b : Board) (enemy : PColor) (row col : Int) :
    List (Int × Int) → List Move → Option (List Move)
  | [], moves => some moves
  | d :: ds, moves =>
    match scanDir b enemy row col d (List.range' 1 7) moves with
    | none => none
    | some moves' => scanDirs b enemy row col ds moves'

/-- `GameState.getRookMoves(row, col, moves)`. -/
def getRookMoves (b : Board) (w : Bool) (row col : Int) (moves : List Move) :
    Option (List Move) :=
  scanDirs b (if w then PColor.black else PColor.white) row col
    [(-1, 0), (0, -1), (1, 0), (0, 1)] moves

/-- `GameState.getBishopMoves(row, col, moves)`. -/
def getBishopMoves (b : Board) (w : Bool) (row col : Int) (moves : List Move) :
    Option (List Move) :=
  scanDirs b (if w then PColor.black else PColor.white) row col
    [(-1, -1), (-1, 1), (1, -1), (1, 1)] moves

/-- `GameState.getQueenMoves(row, col, moves)`: delegation to the rook scan
followed by the bishop scan on the same square. -/
def getQueenMoves (b : Board) (w : Bool) (row col : Int) (moves : List Move) :
    Option (List Move) :=
  match getRookMoves b w row col moves with
  | none => none
  | some moves1 => getBishopMoves b w row col moves1

/-- The shared offset loop of `getKnightMoves` and `getKingMoves` (their
bodies are textually identical in the source apart from the offset tuples):
append every in-bounds destination not occupied by a piece of color
`ally`.  In the source the variable holding `ally` is (mis)named
`enemyColor` in `getKnightMoves` and `allyColor` in `getKingMoves`; both
hold the mover's own color and the test is `endPiece[0] != thatColor`. -/
def offsetMoves (b : Board) (ally : PColor) (row col : Int) :
    List (Int × Int) → List Move → Option (List Move)
  | [], moves => some moves
  | o :: os, moves =>
    let endRow := row + o.1
    let endCol := col + o.2
    if 0 ≤ endRow ∧ endRow < 8 ∧ 0 ≤ endCol ∧ endCol < 8 then
      match pyGet b endRow endCol with
      | none => none
      | some endPiece =>
        if endPiece.hasColor ally then offsetMoves b ally row col os moves
        else
          match mkMove (row, col) (endRow, endCol) b with
          | none => none
          | some m => offsetMoves b ally row col os (moves ++ [m])
    else offsetMoves b ally row col os moves

/-- `GameState.getKnightMoves(row, col, moves)`. -/
def getKnightMoves (b : Board) (w : Bool) (row col : Int) (moves : List Move) :
    Option (List Move) :=
  offsetMoves b (if w then PColor.white else PColor.black) row col
    [(-2, -1), (-2, 1), (-1, -2), (-1, 2), (1, -2), (1, 2), (2, -1), (2, 1)] moves

/-- `GameState.getKingMoves(row, col, moves)`. -/
def getKingMoves (b : Board) (w : Bool) (row col : Int) (moves : List Move) :
    Option (List Move) :=
  offsetMoves b (if w then PColor.white else PColor.black) row col
    [(-1, -1), (-1, 0), (-1, 1), (0, -1), (0, 1), (1, -1), (1, 0), (1, 1)] moves

/-- The `self.moveFunctions` dictionary: piece kind to generator. -/
def moveFunction (k : PKind) :
    Board → Bool → Int → Int → List Move → Option (List Move) :=
  match k with
  | PKind.pawn => getPawnMoves
  | PKind.rook => getRookMoves
  | PKind.knight => getKnightMoves
  | PKind.bishop => getBishopMoves
  | PKind.queen => getQueenMoves
  | PKind.king => getKingMoves

/-- The body of `getAllPossibleMoves` for one square: if the piece color
matches the side to move (`turn == "w" and whiteToMove or turn == "b" and
not whiteToMove`), call that piece kind's generator. -/
def genSquare (b : Board) (w : Bool) (r c : Nat) (cell : Cell)
    (moves : List Move) : Option (List Move) :=
  match cell with
  | Cell.empty => some moves
  | Cell.piece pc k =>
    if (pc = PColor.white ∧ w = true) ∨ (pc = PColor.black ∧ w = false) then
      moveFunction k b w (r : Int) (c : Int) moves
    else some moves

/-- Read the cell at a nonnegative (row, col) index pair. -/
def bget (b : Board) (r c : Nat) : Option Cell :=
  match b.get? r with
  | some rowL => rowL.get? c
  | none => none

/-- The inner `for col in range(len(self.board[row]))` loop of
`getAllPossibleMoves`: each iteration reads `self.board[row][col]`
(indices produced by `range` are always in range, so the read never
raises). -/
def scanRow (b : Board) (w : Bool) (r : Nat) :
    List Nat → List Move → Option (List Move)
  | [], moves => some moves
  | c :: cs, moves =>
    match bget b r c with
    | none => none
    | some cell =>
      match genSquare b w r c cell moves with
      | none => none
      | some moves' => scanRow b w r cs moves'

/-- The outer `for row in range(len(self.board))` loop of
`getAllPossibleMoves`. -/
def scanBoard (b : Board) (w : Bool) :
    List Nat → List Move → Option (List Move)
  | [], moves => some moves
  | r :: rs, moves =>
    match b.get? r with
    | none => none
    | some rowL =>
      match scanRow b w r (List.range rowL.length) moves with
      | none => none
      | some moves' => scanBoard b w rs moves'

/-- `getAllPossibleMoves` on an explicit board and side to move. -/
def allMovesCore (b : Board) (w : Bool) : Option (List Move) :=
  scanBoard b w (List.range b.length) []

/-- `GameState.getAllPossibleMoves()`: all pseudo-legal moves for the side
to move, in board-scan order.  Reads only `self.board` and
`self.whiteToMove`; mutates nothing. -/
def getAllPossibleMoves (gs : GameState) : Option (List Move) :=
  allMovesCore gs.board gs.whiteToMove

/-- `GameState.squareUnderAttack(row, col)`: flip the side-to-move flag,
generate the opponent's pseudo-legal moves, flip the flag back, and report
whether any generated move ends on `(row, col)`.  The returned state is
the state after the two flips. -/
def squareUnderAttack (gs : GameState) (row col : Int) :
    Option (Bool × GameState) :=
  let gs1 : GameState := { gs with whiteToMove := !gs.whiteToMove }
  match getAllPossibleMoves gs1 with
  | none => none
  | some oppMoves =>
    some (oppMoves.any (fun m => m.endRow == row && m.endCol == col),
          { gs1 with whiteToMove := !gs1.whiteToMove })

/-- `GameState.inCheck()`: is the current side to move's king square under
attack. -/
def inCheck (gs : GameState) : Option (Bool × GameState) :=
  if gs.whiteToMove then
    squareUnderAttack gs gs.whiteKingLocation.1 gs.whiteKingLocation.2
  else
    squareUnderAttack gs gs.blackKingLocation.1 gs.blackKingLocation.2

/-- `moves.remove(x)`: delete the first element equal (by `Move.__eq__`,
identifier comparison) to `x`; `ValueError` (`none`) if no element
matches. -/
def removeFirst : List Move → Move → Option (List Move)
  | [], _ => none
  | x :: xs, m =>
    if moveBeq x m then some xs
    else
      match removeFirst xs m with
      | none => none
      | some ys => some (x :: ys)

/-- The `for i in range(len(moves) - 1, -1, -1)` loop of `getValidMoves`:
counting down, simulate `moves[i]` with `makeMove`, flip the turn, test
`inCheck()` for the acting side, remove the candidate if the king is
attacked, flip the turn back and revert with `undoMove`. -/
def filterLoop : GameState → List Move → Nat → Option (List Move × GameState)
  | gs, moves, 0 => some (moves, gs)
  | gs, moves, Nat.succ i =>
    match moves.get? i with
    | none => none
    | some m =>
      match makeMove gs m with
      | none => none
      | some gs1 =>
        let gs2 : GameState := { gs1 with whiteToMove := !gs1.whiteToMove }
        match inCheck gs2 with
        | none => none
        | some (chk, gs3) =>
          match (if chk then removeFirst moves m else some moves) with
          | none => none
          | some moves' =>
            let gs4 : GameState := { gs3 with whiteToMove := !gs3.whiteToMove }
            match undoMove gs4 with
            | none => none
            | some gs5 => filterLoop gs5 moves' i

/-- `GameState.getValidMoves()`: generate all pseudo-legal moves, filter
out the ones whose simulation leaves the mover's own king attacked, then
set `checkMate`/`staleMate` from the surviving set. -/
def getValidMoves (gs : GameState) : Option (List Move × GameState) :=
  match getAllPossibleMoves gs with
  | none => none
  | some moves =>
    match filterLoop gs moves moves.length with
    | none => none
    | some (moves2, gsL) =>
      if moves2.length = 0 then
        match inCheck gsL with
        | none => none
        | some (chk, gsC) =>
          if chk then some (moves2, { gsC with checkMate := true })
          else some (moves2, { gsC with staleMate := true })
      else some (moves2, { gsL with checkMate := false, staleMate := false })

/-- The self-check simulation applied to one candidate: the `makeMove`,
turn-flip, `inCheck()` sequence of the `getValidMoves` loop, returning
whether the acting side's king is attacked after the move. -/
def exposed (gs : GameState) (m : Move) : Option Bool :=
  match makeMove gs m with
  | none => none
  | some gs1 =>
    match inCheck { gs1 with whiteToMove := !gs1.whiteToMove } with
    | none => none
    | some (b, _) => some b

/-- The keep-predicate of the legality filter: the simulation ran and did
not leave the acting side's king attacked. -/
def keepB (gs : GameState) (m : Move) : Bool :=
  exposed gs m == some false

/-- One iteration of the driver loop in `ChessMain.py`: compute the valid
moves, construct a `Move` from the two clicked squares against the current
board, and commit it with `makeMove` only if it is a member (by
`Move.__eq__`) of the valid set.  `find?` returns the matching list
element; since equality is identifier-based, the committed move carries the
same four coordinates, and its snapshots agree with the list element's
because both were constructed from the same board. -/
def mkStep (gs : GameState) (startSq endSq : Int × Int) : Option GameState :=
  match getValidMoves gs with
  | none => none
  | some (ms, gs') =>
    match mkMove startSq endSq gs'.board with
    | none => none
    | some m =>
      match ms.find? (fun m' => moveBeq m' m) with
      | none => none
      | some melt => makeMove gs' melt

/-- Sequences of committed moves from a state. -/
def foldSteps (gs : GameState) : List ((Int × Int) × (Int × Int)) → Option GameState
  | [] => some gs
  | s :: rest =>
    match mkStep gs s.1 s.2 with
    | none => none
    | some gs' => foldSteps gs' rest

/-- Reachable game states: the initial state, and any state obtained by
computing the valid moves and committing a member of the returned set. -/
inductive Reachable : GameState → Prop
  | init : Reachable initialGameState
  | step {gs ms gs' m gs''} : Reachable gs → getValidMoves gs = some (ms, gs') →
      m ∈ ms → makeMove gs' m = some gs'' → Reachable gs''

/-- The king-location invariant of the spec: each king-location field is an
in-range square, the board holds that color's king exactly there, and
nowhere else. -/
def kingLocsOK (gs : GameState) : Bool :=
  decide (0 ≤ gs.whiteKingLocation.1 ∧ gs.whiteKingLocation.1 < 8 ∧
          0 ≤ gs.whiteKingLocation.2 ∧ gs.whiteKingLocation.2 < 8 ∧
          0 ≤ gs.blackKingLocation.1 ∧ gs.blackKingLocation.1 < 8 ∧
          0 ≤ gs.blackKingLocation.2 ∧ gs.blackKingLocation.2 < 8) &&
  (List.range 8).all (fun r => (List.range 8).all (fun c =>
    (decide (pyGet gs.board (r : Int) (c : Int) = some wKing) ==
       decide ((((r : Nat) : Int), ((c : Nat) : Int)) = gs.whiteKingLocation)) &&
    (decide (pyGet gs.board (r : Int) (c : Int) = some bKing) ==
       decide ((((r : Nat) : Int), ((c : Nat) : Int)) = gs.blackKingLocation))))

/-- Shorthand for the empty cell in board literals. -/
def E : Cell := Cell.empty

/-- The ten-ply game 1. g4 h5 2. Nh3 hxg4 3. Bg2 gxh3 4. Nc3 hxg2 5. Nb1
gxh1: black's h-pawn marches to h1 (no promotion exists, so it stays a
pawn on white's back rank). -/
def pawnChain : List ((Int × Int) × (Int × Int)) :=
  [((6,6),(4,6)), ((1,7),(3,7)),
   ((7,6),(5,7)), ((3,7),(4,6)),
   ((7,5),(6,6)), ((4,6),(5,7)),
   ((7,1),(5,2)), ((5,7),(6,6)),
   ((5,2),(7,1)), ((6,6),(7,7))]

/-- The state after `pawnChain`: white to move, a black pawn on square
(7,7). -/
def pawnEndState : GameState :=
  { board :=
      [[bR, bN, bB, bQ, bKing, bB, bN, bR],
       [bp, bp, bp, bp, bp, bp, bp, E],
       [E, E, E, E, E, E, E, E],
       [E, E, E, E, E, E, E, E],
       [E, E, E, E, E, E, E, E],
       [E, E, E, E, E, E, E, E],
       [wp, wp, wp, wp, wp, wp, E, wp],
       [wR, wN, wB, wQ, wKing, E, E, bp]]
    whiteToMove := true
    moveLog :=
      [⟨6, 6, 4, 6, wp, E⟩, ⟨1, 7, 3, 7, bp, E⟩,
       ⟨7, 6, 5, 7, wN, E⟩, ⟨3, 7, 4, 6, bp, wp⟩,
       ⟨7, 5, 6, 6, wB, E⟩, ⟨4, 6, 5, 7, bp, wN⟩,
       ⟨7, 1, 5, 2, wN, E⟩, ⟨5, 7, 6, 6, bp, wB⟩,
       ⟨5, 2, 7, 1, wN, E⟩, ⟨6, 6, 7, 7, bp, wR⟩]
    whiteKingLocation := (7, 4)
    blackKingLocation := (0, 4)
    checkMate := false
    staleMate := false }

/-- The fool's mate game 1. f3 e5 2. g4 Qh4. -/
def foolSteps : List ((Int × Int) × (Int × Int)) :=
  [((6,5),(5,5)), ((1,4),(3,4)), ((6,6),(4,6)), ((0,3),(4,7))]

/-- The state after `foolSteps`: white to move, mated by the queen on h4. -/
def foolState : GameState :=
  { board :=
      [[bR, bN, bB, E, bKing, bB, bN, bR],
       [bp, bp, bp, bp, E, bp, bp, bp],
       [E, E, E, E, E, E, E, E],
       [E, E, E, E, bp, E, E, E],
       [E, E, E, E, E, E, wp, bQ],
       [E, E, E, E, E, wp, E, E],
       [wp, wp, wp, wp, wp, E, E, wp],
       [wR, wN, wB, wQ, wKing, wB, wN, wR]]
    whiteToMove := true
    moveLog :=
      [⟨6, 5, 5, 5, wp, E⟩, ⟨1, 4, 3, 4, bp, E⟩,
       ⟨6, 6, 4, 6, wp, E⟩, ⟨0, 3, 4, 7, bQ, E⟩]
    whiteKingLocation := (7, 4)
    blackKingLocation := (0, 4)
    checkMate := false
    staleMate := false }

/-- A position with a pinned bishop: the white bishop on e2 shields the
white king on e1 from the black rook on e8; white to move. -/
def pinState : GameState :=
  { board :=
      [[bKing, E, E, E, bR, E, E, E],
       [E, E, E, E, E, E, E, E],
       [E, E, E, E, E, E, E, E],
       [E, E, E, E, E, E, E, E],
       [E, E, E, E, E, E, E, E],
       [E, E, E, E, E, E, E, E],
       [E, E, E, E, wB, E, E, E],
       [E, E, E, E, wKing, E, E, E]]
    whiteToMove := true
    moveLog := []
    whiteKingLocation := (7, 4)
    blackKingLocation := (0, 0)
    checkMate := false
    staleMate := false }

/-! ### Basic facts about the embedded Python list indexing -/

/-- The normalized square coordinate: negative indices wrap by 8. -/
def pyNorm (i : Int) : Nat := (if 0 ≤ i then i else i + 8).toNat

/-- Coordinate bounds satisfied by every move a generator can emit on an
8x8 board (the end row can be -1: a pawn on row 0 advancing off the
board). -/
def coordOK (m : Move) : Prop :=
  0 ≤ m.startRow ∧ m.startRow < 8 ∧ 0 ≤ m.startCol ∧ m.startCol < 8 ∧
  -1 ≤ m.endRow ∧ m.endRow < 8 ∧ 0 ≤ m.endCol ∧ m.endCol < 8

/-- Two moves with different destination squares. -/
def endsNe2 (m n : Move) : Prop := m.endRow ≠ n.endRow ∨ m.endCol ≠ n.endCol

/-- Every move emitted by a generator call at square `(row, col)` on an
8x8 board satisfies this: it starts at the call square, its destination
is in bounds except that a pawn on its last rank targets row -1, its
snapshots agree with the board, and it never captures a piece of the
moving side's color. -/
def MoveOK (b : Board) (w : Bool) (row col : Int) (m : Move) : Prop :=
  m.startRow = row ∧ m.startCol = col ∧
  -1 ≤ m.endRow ∧ m.endRow < 8 ∧ 0 ≤ m.endCol ∧ m.endCol < 8 ∧
  pyGet b m.startRow m.startCol = some m.pieceMoved ∧
  pyGet b m.endRow m.endCol = some m.pieceCaptured ∧
  m.pieceCaptured.hasColor (if w then PColor.white else PColor.black) = false

/-- Directions whose step sequences from a common origin can never land
on the same square. -/
def dirTargetsDisjoint (row col : Int) (d d' : Int × Int) : Prop :=
  ∀ k k' : Nat, 1 ≤ k → 1 ≤ k' →
    ¬(row + d.1 * (k : Int) = row + d'.1 * (k' : Int) ∧
      col + d.2 * (k : Int) = col + d'.2 * (k' : Int))

/-- `MoveOK` together with the dispatch information: a generated move
either stays on the board or was produced by the pawn generator (so the
moved piece is the mover's pawn). -/
def SqMoveOK (b : Board) (w : Bool) (r c : Int) (m : Move) : Prop :=
  MoveOK b w r c m ∧
  (0 ≤ m.endRow ∨
    m.pieceMoved = Cell.piece (if w then PColor.white else PColor.black) PKind.pawn)

/-- The conditions a candidate of `getAllPossibleMoves` satisfies relative
to the state it was generated from. -/
def CandOK (gs : GameState) (m : Move) : Prop :=
  0 ≤ m.startRow ∧ m.startRow < 8 ∧ 0 ≤ m.startCol ∧ m.startCol < 8 ∧
  -1 ≤ m.endRow ∧ m.endRow < 8 ∧ 0 ≤ m.endCol ∧ m.endCol < 8 ∧
  pyGet gs.board m.startRow m.startCol = some m.pieceMoved ∧
  pyGet gs.board m.endRow m.endCol = some m.pieceCaptured

/-- The square reached after `i` steps from `(row, col)` along direction `d`. -/
def rayPt (row col : Int) (d : Int × Int) (i : Nat) : Int × Int :=
  (row + d.1 * (i : Int), col + d.2 * (i : Int))

/-- The bounds test `0 <= endRow <= 7 and 0 <= endCol <= 7` of the sliding
generators, on a target square. -/
def ptInB (p : Int × Int) : Prop :=
  0 ≤ p.1 ∧ p.1 < 8 ∧ 0 ≤ p.2 ∧ p.2 < 8

/-- The target square holds the empty marker `"--"`. -/
def ptEmpty (b : Board) (p : Int × Int) : Prop :=
  pyGet b p.1 p.2 = some Cell.empty

/-- The target square holds a piece of the enemy color. -/
def ptEnemy (b : Board) (enemy : PColor) (p : Int × Int) : Prop :=
  ∃ x, pyGet b p.1 p.2 = some x ∧ x.hasColor enemy = true

/-- Some move of the list ends on the given square. -/
def hitsPt (ms : List Move) (p : Int × Int) : Prop :=
  ∃ m ∈ ms, m.endRow = p.1 ∧ m.endCol = p.2

/-- Every strictly earlier step of the ray (from step `s` on) lands in
bounds on an empty square. -/
def clearBefore (b : Board) (row col : Int) (d : Int × Int) (s i : Nat) : Prop :=
  ∀ j : Nat, s ≤ j → j < i → ptInB (rayPt row col d j) ∧ ptEmpty b (rayPt row col d j)

/-- The blocking rules hold along every listed direction: each ray square
receives a move exactly when the path before it is in bounds and empty and
the square itself is in bounds and empty or enemy-occupied. -/
def slideChar (b : Board) (enemy : PColor) (row col : Int)
    (ds : List (Int × Int)) (new : List Move) : Prop :=
  ∀ d ∈ ds, ∀ i : Nat, 1 ≤ i → i ≤ 7 →
    (hitsPt new (rayPt row col d i) ↔
      clearBefore b row col d 1 i ∧ ptInB (rayPt row col d i) ∧
        (ptEmpty b (rayPt row col d i) ∨ ptEnemy b enemy (rayPt row col d i)))

/-- The legal moves of the initial position, in generation order: the
sixteen pawn advances, then the four knight moves. -/
def validInit : List Move :=
  [⟨6, 0, 5, 0, wp, E⟩, ⟨6, 0, 4, 0, wp, E⟩,
   ⟨6, 1, 5, 1, wp, E⟩, ⟨6, 1, 4, 1, wp, E⟩,
   ⟨6, 2, 5, 2, wp, E⟩, ⟨6, 2, 4, 2, wp, E⟩,
   ⟨6, 3, 5, 3, wp, E⟩, ⟨6, 3, 4, 3, wp, E⟩,
   ⟨6, 4, 5, 4, wp, E⟩, ⟨6, 4, 4, 4, wp, E⟩,
   ⟨6, 5, 5, 5, wp, E⟩, ⟨6, 5, 4, 5, wp, E⟩,
   ⟨6, 6, 5, 6, wp, E⟩, ⟨6, 6, 4, 6, wp, E⟩,
   ⟨6, 7, 5, 7, wp, E⟩, ⟨6, 7, 4, 7, wp, E⟩,
   ⟨7, 1, 5, 0, wN, E⟩, ⟨7, 1, 5, 2, wN, E⟩,
   ⟨7, 6, 5, 5, wN, E⟩, ⟨7, 6, 5, 7, wN, E⟩]

/-- The single advance of the a-pawn, the first legal move of the initial
position. -/
def mvA3 : Move := ⟨6, 0, 5, 0, wp, E⟩

/-- The pseudo-legal moves of `pinState`: nine moves of the pinned bishop
followed by four king moves. -/
def candPin : List Move :=
  [⟨6, 4, 5, 3, wB, E⟩, ⟨6, 4, 4, 2, wB, E⟩, ⟨6, 4, 3, 1, wB, E⟩,
   ⟨6, 4, 2, 0, wB, E⟩, ⟨6, 4, 5, 5, wB, E⟩, ⟨6, 4, 4, 6, wB, E⟩,
   ⟨6, 4, 3, 7, wB, E⟩, ⟨6, 4, 7, 3, wB, E⟩, ⟨6, 4, 7, 5, wB, E⟩,
   ⟨7, 4, 6, 3, wKing, E⟩, ⟨7, 4, 6, 5, wKing, E⟩,
   ⟨7, 4, 7, 3, wKing, E⟩, ⟨7, 4, 7, 5, wKing, E⟩]

/-- The legal moves of `pinState`: only the four king moves survive the
filter. -/
def validPin : List Move :=
  [⟨7, 4, 6, 3, wKing, E⟩, ⟨7, 4, 6, 5, wKing, E⟩,
   ⟨7, 4, 7, 3, wKing, E⟩, ⟨7, 4, 7, 5, wKing, E⟩]

/-- The pinned bishop's pseudo-legal step off the e-file. -/
def pinMove : Move := ⟨6, 4, 5, 3, wB, E⟩

/-- A position in which a white knight can pseudo-legally capture the
black king: wN on (2,1), bK on (0,0), wK on (7,4), white to move.  The
legality filter of `getValidMoves` simulates exactly such captures with
`makeMove`. -/
def knightCapState : GameState :=
  { board :=
      [[bKing, E, E, E, E, E, E, E],
       [E, E, E, E, E, E, E, E],
       [E, wN, E, E, E, E, E, E],
       [E, E, E, E, E, E, E, E],
       [E, E, E, E, E, E, E, E],
       [E, E, E, E, E, E, E, E],
       [E, E, E, E, E, E, E, E],
       [E, E, E, E, wKing, E, E, E]]
    whiteToMove := true
    moveLog := []
    whiteKingLocation := (7, 4)
    blackKingLocation := (0, 0)
    checkMate := false
    staleMate := false }

/-- The knight's capture of the black king in `knightCapState`. -/
def knightCapMove : Move := ⟨2, 1, 0, 0, wN, bKing⟩

/-- The pseudo-legal moves of `knightCapState`: six knight moves (the
king capture first) and five king moves. -/
def candKnightCap : List Move :=
  [⟨2, 1, 0, 0, wN, bKing⟩, ⟨2, 1, 0, 2, wN, E⟩, ⟨2, 1, 1, 3, wN, E⟩,
   ⟨2, 1, 3, 3, wN, E⟩, ⟨2, 1, 4, 0, wN, E⟩, ⟨2, 1, 4, 2, wN, E⟩,
   ⟨7, 4, 6, 3, wKing, E⟩, ⟨7, 4, 6, 4, wKing, E⟩, ⟨7, 4, 6, 5, wKing, E⟩,
   ⟨7, 4, 7, 3, wKing, E⟩, ⟨7, 4, 7, 5, wKing, E⟩]

/-- Two moves with the same four coordinates built against different
boards: the piece fields differ. -/
def mwitA : Move := ⟨1, 2, 3, 4, wp, E⟩

/-- The same four coordinates as `mwitA` with different piece fields. -/
def mwitB : Move := ⟨1, 2, 3, 4, bQ, wR⟩

/-- A committed move is a `Reachable.step`. -/
theorem reachable_mkStep {gs gs' : GameState} {s e : Int × Int}
    (h : Reachable gs) (hs : mkStep gs s e = some gs') : Reachable gs' := by
  unfold mkStep at hs
  split at hs
  · cases hs
  · rename_i ms gsv hv
    split at hs
    · cases hs
    · split at hs
      · cases hs
      · rename_i m hm melt hf
        exact Reachable.step h hv (List.mem_of_find?_eq_some hf) hs

/-- A sequence of committed moves preserves reachability. -/
theorem reachable_foldSteps :
    ∀ (steps : List ((Int × Int) × (Int × Int))) (gs gs' : GameState),
      Reachable gs → foldSteps gs steps = some gs' → Reachable gs'
  | [], gs, gs', h, hs => by
    unfold foldSteps at hs
    exact (Option.some.injEq _ _ ▸ hs : gs = gs') ▸ h
  | s :: rest, gs, gs', h, hs => by
    unfold foldSteps at hs
    rcases hm : mkStep gs s.1 s.2 with _ | gs1 <;> rw [hm] at hs
    · cases hs
    · exact reachable_foldSteps rest gs1 gs' (reachable_mkStep h hm) hs

set_option maxHeartbeats 8000000 in
set_option maxRecDepth 100000 in
/-- Playing `pawnChain` from the initial state ends in `pawnEndState`. -/
theorem pawnChain_plays : foldSteps initialGameState pawnChain = some pawnEndState := by
  rfl

/-- `pawnEndState` is reachable. -/
theorem pawnEndState_reachable : Reachable pawnEndState :=
  reachable_foldSteps pawnChain initialGameState pawnEndState Reachable.init
    pawnChain_plays

set_option maxRecDepth 100000 in
/-- C1 is refuted on this reachable state: white to move, a black pawn on
square (7,7).  The engine passes (7,7) to `getPawnMoves` while generating
black's replies inside the legality simulation; that call reads board row
8 without any bound check, so the error branch of indexing is reached and
`getValidMoves` aborts (in Python, an uncaught `IndexError`). -/
theorem getPawnMoves_out_of_bounds :
    Reachable pawnEndState ∧
    pawnEndState.whiteToMove = true ∧
    pyGet pawnEndState.board 7 7 = some bp ∧
    getPawnMoves pawnEndState.board false 7 7 [] = none ∧
    getValidMoves pawnEndState = none :=
  ⟨pawnEndState_reachable, rfl, by rfl, by rfl, by rfl⟩

set_option maxHeartbeats 4000000 in
set_option maxRecDepth 100000 in
/-- Playing `foolSteps` from the initial state ends in `foolState`. -/
theorem foolSteps_plays : foldSteps initialGameState foolSteps = some foolState := by
  rfl

/-- Characterization of successful Python index resolution. -/
theorem pyIdx_eq_some {len : Nat} {i : Int} {n : Nat} :
    pyIdx len i = some n ↔
      n < len ∧ ((0 ≤ i ∧ (n : Int) = i) ∨ (i < 0 ∧ (n : Int) = i + len)) := by
  unfold pyIdx
  split_ifs with h1 h2 h3 <;> simp <;> omega

/-- Characterization of a Python `IndexError`. -/
theorem pyIdx_eq_none {len : Nat} {i : Int} :
    pyIdx len i = none ↔ (i < -(len : Int) ∨ (len : Int) ≤ i) := by
  unfold pyIdx
  split_ifs with h1 h2 h3 <;> simp <;> omega

/-- A natural-number index below the length resolves to itself. -/
theorem pyIdx_natCast {len n : Nat} (h : n < len) : pyIdx len (n : Int) = some n := by
  rw [pyIdx_eq_some]
  omega

theorem pyNorm_lt {i : Int} (h1 : -8 ≤ i) (h2 : i < 8) : pyNorm i < 8 := by
  unfold pyNorm
  split_ifs <;> omega

theorem pyNorm_natCast {n : Nat} : pyNorm (n : Int) = n := by
  unfold pyNorm
  split_ifs <;> omega

theorem pyIdx8_norm {i : Int} (h1 : -8 ≤ i) (h2 : i < 8) :
    pyIdx 8 i = some (pyNorm i) := by
  rw [pyIdx_eq_some]
  unfold pyNorm
  split_ifs <;> omega

/-- A convenient reformulation of `dims8`. -/
theorem dims8_iff {b : Board} :
    dims8 b = true ↔
      b.length = 8 ∧ ∀ r : Nat, ∀ rowL, b.get? r = some rowL → rowL.length = 8 := by
  unfold dims8
  simp only [Bool.and_eq_true, beq_iff_eq, List.all_eq_true]
  constructor
  · rintro ⟨h1, h2⟩
    exact ⟨h1, fun r rowL hr => h2 rowL (List.get?_mem hr)⟩
  · rintro ⟨h1, h2⟩
    refine ⟨h1, fun rowL hmem => ?_⟩
    rcases List.get_of_mem hmem with ⟨⟨r, hr⟩, rfl⟩
    exact h2 r _ (List.get?_eq_get hr)

theorem dims8_len {b : Board} (h : dims8 b = true) : b.length = 8 :=
  (dims8_iff.mp h).1

theorem dims8_rowlen {b : Board} {r : Nat} {rowL : List Cell}
    (h : dims8 b = true) (hr : b.get? r = some rowL) : rowL.length = 8 :=
  (dims8_iff.mp h).2 r rowL hr

/-- In-window reads go through `bget` at the normalized coordinates. -/
theorem pyGet_eq_bget {b : Board} (hb : dims8 b = true) {r c : Int}
    (hr1 : -8 ≤ r) (hr2 : r < 8) (hc1 : -8 ≤ c) (hc2 : c < 8) :
    pyGet b r c = bget b (pyNorm r) (pyNorm c) := by
  unfold pyGet pyGetL bget
  rw [dims8_len hb, pyIdx8_norm hr1 hr2]
  dsimp only
  rcases hrow : b.get? (pyNorm r) with _ | rowL
  · rfl
  · dsimp only
    rw [dims8_rowlen hb hrow, pyIdx8_norm hc1 hc2]

/-- A read outside the index window raises. -/
theorem pyGet_none_of_row {b : Board} (hb : dims8 b = true) {r c : Int}
    (h : r < -8 ∨ 8 ≤ r) : pyGet b r c = none := by
  unfold pyGet pyGetL
  rw [dims8_len hb, pyIdx_eq_none.mpr (by omega)]

theorem pyGet_none_of_col {b : Board} (hb : dims8 b = true) {r c : Int}
    (h : c < -8 ∨ 8 ≤ c) : pyGet b r c = none := by
  unfold pyGet pyGetL
  rw [dims8_len hb]
  rcases hn : pyIdx 8 r with _ | n
  · rfl
  · dsimp only
    rcases hrow : b.get? n with _ | rowL
    · rfl
    · dsimp only
      rw [dims8_rowlen hb hrow, pyIdx_eq_none.mpr (by omega)]

/-- In-window reads on an 8x8 board always succeed. -/
theorem bget_isSome {b : Board} (hb : dims8 b = true) {r c : Nat}
    (hr : r < 8) (hc : c < 8) : ∃ x, bget b r c = some x := by
  unfold bget
  rcases hrow : b.get? r with _ | rowL
  · rw [List.get?_eq_none] at hrow
    have := dims8_len hb
    omega
  · dsimp only
    rcases hcell : rowL.get? c with _ | x
    · rw [List.get?_eq_none] at hcell
      have := dims8_rowlen hb hrow
      omega
    · exact ⟨x, rfl⟩

theorem pyGet_isSome {b : Board} (hb : dims8 b = true) {r c : Int}
    (hr1 : -8 ≤ r) (hr2 : r < 8) (hc1 : -8 ≤ c) (hc2 : c < 8) :
    ∃ x, pyGet b r c = some x := by
  rw [pyGet_eq_bget hb hr1 hr2 hc1 hc2]
  exact bget_isSome hb (pyNorm_lt hr1 hr2) (pyNorm_lt hc1 hc2)

/-! ### Writing to the board -/

/-- Successful writes on an 8x8 board, in terms of `List.set` at the
normalized coordinates. -/
theorem pySet_eq {b : Board} (hb : dims8 b = true) {r c : Int} {x : Cell}
    (hr1 : -8 ≤ r) (hr2 : r < 8) (hc1 : -8 ≤ c) (hc2 : c < 8) :
    ∃ rowL, b.get? (pyNorm r) = some rowL ∧
      pySet b r c x = some (b.set (pyNorm r) (rowL.set (pyNorm c) x)) := by
  obtain ⟨cell, hcell⟩ := bget_isSome hb (pyNorm_lt hr1 hr2) (pyNorm_lt hc1 hc2)
  unfold bget at hcell
  rcases hrow : b.get? (pyNorm r) with _ | rowL
  · rw [hrow] at hcell; cases hcell
  · refine ⟨rowL, rfl, ?_⟩
    unfold pySet pySetL
    rw [dims8_len hb, pyIdx8_norm hr1 hr2]
    dsimp only
    rw [hrow]
    dsimp only
    rw [dims8_rowlen hb hrow, pyIdx8_norm hc1 hc2]

/-- A write fails exactly when a coordinate is outside the index window. -/
theorem pySet_isSome {b : Board} (hb : dims8 b = true) {r c : Int} {x : Cell} :
    (pySet b r c x).isSome = true ↔ (-8 ≤ r ∧ r < 8 ∧ -8 ≤ c ∧ c < 8) := by
  constructor
  · intro h
    by_contra hout
    push_neg at hout
    unfold pySet pySetL at h
    rw [dims8_len hb] at h
    rcases hn : pyIdx 8 r with _ | n
    · rw [hn] at h; simp at h
    · rw [hn] at h
      dsimp only at h
      have hr := pyIdx_eq_some.mp hn
      rcases hrow : b.get? n with _ | rowL
      · rw [hrow] at h; simp at h
      · rw [hrow] at h
        dsimp only at h
        rcases hm : pyIdx rowL.length c with _ | m
        · rw [hm] at h; simp at h
        · have hc := pyIdx_eq_some.mp hm
          rw [dims8_rowlen hb hrow] at hc
          omega
  · rintro ⟨hr1, hr2, hc1, hc2⟩
    obtain ⟨rowL, _, hset⟩ := @pySet_eq _ hb _ _ x hr1 hr2 hc1 hc2
    rw [hset]
    rfl

/-- Writes preserve the 8x8 shape. -/
theorem dims8_set {b : Board} {rowL : List Cell} {nr nc : Nat} {x : Cell}
    (hb : dims8 b = true) (hrow : b.get? nr = some rowL) :
    dims8 (b.set nr (rowL.set nc x)) = true := by
  rw [dims8_iff]
  refine ⟨by rw [List.length_set]; exact dims8_len hb, ?_⟩
  intro r row' hr
  rcases eq_or_ne nr r with rfl | hne
  · have hlt : nr < b.length := (List.get?_eq_some.mp hrow).1
    rw [List.get?_set_eq_of_lt _ hlt] at hr
    cases hr
    rw [List.length_set]
    exact dims8_rowlen hb hrow
  · rw [List.get?_set_ne _ _ hne] at hr
    exact dims8_rowlen hb hr

/-- Pointwise description of a write. -/
theorem bget_set {b : Board} {rowL : List Cell} {nr nc : Nat} {x : Cell}
    (hb : dims8 b = true) (hrow : b.get? nr = some rowL) (hnc : nc < 8)
    {r' c' : Nat} (hc' : c' < 8) :
    bget (b.set nr (rowL.set nc x)) r' c' =
      if r' = nr ∧ c' = nc then some x else bget b r' c' := by
  unfold bget
  rcases eq_or_ne nr r' with rfl | hne
  · have hlt : nr < b.length := (List.get?_eq_some.mp hrow).1
    rw [List.get?_set_eq_of_lt _ hlt]
    dsimp only
    rcases eq_or_ne nc c' with rfl | hnec
    · rw [List.get?_set_eq_of_lt _ (by rw [dims8_rowlen hb hrow]; exact hnc)]
      simp [hrow]
    · rw [List.get?_set_ne _ _ hnec, hrow]
      simp [Ne.symm hnec]
  · rw [List.get?_set_ne _ _ hne]
    have : ¬(r' = nr ∧ c' = nc) := fun hcon => hne hcon.1.symm
    rw [if_neg this]

/-- Two 8x8 boards with the same cells are equal. -/
theorem board_ext {b b' : Board} (hb : dims8 b = true) (hb' : dims8 b' = true)
    (h : ∀ r c : Nat, r < 8 → c < 8 → bget b r c = bget b' r c) : b = b' := by
  apply List.ext
  intro r
  rcases Nat.lt_or_ge r 8 with hr | hr
  · rcases hrow : b.get? r with _ | rowL
    · rw [List.get?_eq_none] at hrow
      have := dims8_len hb
      omega
    · rcases hrow' : b'.get? r with _ | rowL'
      · rw [List.get?_eq_none] at hrow'
        have := dims8_len hb'
        omega
      · congr 1
        apply List.ext
        intro c
        rcases Nat.lt_or_ge c 8 with hc | hc
        · have := h r c hr hc
          unfold bget at this
          rw [hrow, hrow'] at this
          exact this
        · rw [List.get?_eq_none.mpr, List.get?_eq_none.mpr]
          · rw [dims8_rowlen hb' hrow']; omega
          · rw [dims8_rowlen hb hrow]; omega
  · rw [List.get?_eq_none.mpr, List.get?_eq_none.mpr]
    · rw [dims8_len hb']; omega
    · rw [dims8_len hb]; omega

/-! ### Moves, move identifiers, frame facts -/

/-- On the generator coordinate range, the derived identifier determines
all four coordinates. -/
theorem moveID_inj {m n : Move} (hm : coordOK m) (hn : coordOK n)
    (h : m.moveID = n.moveID) :
    m.startRow = n.startRow ∧ m.startCol = n.startCol ∧
    m.endRow = n.endRow ∧ m.endCol = n.endCol := by
  unfold Move.moveID at h
  unfold coordOK at hm hn
  omega

/-- Inversion for `Move.__init__`. -/
theorem mkMove_some {s e : Int × Int} {b : Board} {m : Move}
    (h : mkMove s e b = some m) :
    m.startRow = s.1 ∧ m.startCol = s.2 ∧ m.endRow = e.1 ∧ m.endCol = e.2 ∧
    pyGet b s.1 s.2 = some m.pieceMoved ∧
    pyGet b e.1 e.2 = some m.pieceCaptured := by
  unfold mkMove at h
  split at h
  · rename_i pm pc h1 h2
    cases h
    exact ⟨rfl, rfl, rfl, rfl, h1, h2⟩
  · cases h

theorem moveBeq_self (m : Move) : moveBeq m m = true := by
  unfold moveBeq
  exact beq_self_eq_true _

/-- `squareUnderAttack` restores the state it was given and answers from
the opponent's pseudo-legal move set. -/
theorem squareUnderAttack_some {gs : GameState} {row col : Int} {att : Bool}
    {gsOut : GameState}
    (h : squareUnderAttack gs row col = some (att, gsOut)) :
    gsOut = gs ∧
    ∃ opp, getAllPossibleMoves { gs with whiteToMove := !gs.whiteToMove } = some opp ∧
      (att = true ↔ ∃ m ∈ opp, m.endRow = row ∧ m.endCol = col) := by
  unfold squareUnderAttack at h
  dsimp only at h
  split at h
  · cases h
  · rename_i opp hopp
    cases h
    refine ⟨by simp, opp, hopp, ?_⟩
    simp [List.any_eq_true]

/-- `inCheck` restores the state it was given. -/
theorem inCheck_some {gs : GameState} {chk : Bool} {gsOut : GameState}
    (h : inCheck gs = some (chk, gsOut)) : gsOut = gs := by
  unfold inCheck at h
  split_ifs at h <;> exact (squareUnderAttack_some h).1

/-- Reads at natural-number coordinates below 8. -/
theorem pyGet_natCast {b : Board} (hb : dims8 b = true) {r c : Nat}
    (hr : r < 8) (hc : c < 8) :
    pyGet b (r : Int) (c : Int) = bget b r c := by
  rw [pyGet_eq_bget hb (by omega) (by omega) (by omega) (by omega),
    pyNorm_natCast, pyNorm_natCast]

/-- Pointwise reformulation of the king-location invariant. -/
theorem kingLocsOK_iff {gs : GameState} (hb : dims8 gs.board = true) :
    kingLocsOK gs = true ↔
      (0 ≤ gs.whiteKingLocation.1 ∧ gs.whiteKingLocation.1 < 8 ∧
       0 ≤ gs.whiteKingLocation.2 ∧ gs.whiteKingLocation.2 < 8 ∧
       0 ≤ gs.blackKingLocation.1 ∧ gs.blackKingLocation.1 < 8 ∧
       0 ≤ gs.blackKingLocation.2 ∧ gs.blackKingLocation.2 < 8) ∧
      ∀ r c : Nat, r < 8 → c < 8 →
        ((bget gs.board r c = some wKing ↔
            (((r : Nat) : Int), ((c : Nat) : Int)) = gs.whiteKingLocation) ∧
         (bget gs.board r c = some bKing ↔
            (((r : Nat) : Int), ((c : Nat) : Int)) = gs.blackKingLocation)) := by
  unfold kingLocsOK
  simp only [List.all_eq_true, List.mem_range, Bool.and_eq_true, beq_iff_eq,
    decide_eq_true_eq, decide_eq_decide]
  constructor
  · rintro ⟨h1, h2⟩
    refine ⟨h1, fun r c hr hc => ?_⟩
    have h3 := h2 r hr c hc
    rw [pyGet_natCast hb hr hc] at h3
    exact h3
  · rintro ⟨h1, h2⟩
    refine ⟨h1, fun r hr c hc => ?_⟩
    have h3 := h2 r c hr hc
    rw [← pyGet_natCast hb hr hc] at h3
    exact h3

/-! ### What the per-piece generators produce -/

theorem coordOK_of_MoveOK {b w row col m} (hrow1 : 0 ≤ row) (hrow2 : row < 8)
    (hcol1 : 0 ≤ col) (hcol2 : col < 8) (h : MoveOK b w row col m) : coordOK m := by
  obtain ⟨h1, h2, h3, h4, h5, h6, _⟩ := h
  exact ⟨by omega, by omega, by omega, by omega, h3, h4, h5, h6⟩

/-- A cell that is empty or enemy-colored is not ally-colored. -/
theorem hasColor_opp {x : Cell} {w : Bool}
    (h : x = Cell.empty ∨ x.hasColor (if w then PColor.black else PColor.white) = true) :
    x.hasColor (if w then PColor.white else PColor.black) = false := by
  rcases h with rfl | h
  · rfl
  · cases x with
    | empty => rfl
    | piece c k => cases w <;> cases c <;> simp_all [Cell.hasColor]

/-- Bounds extracted from a successful read. -/
theorem pyGet_some_bounds {b : Board} (hb : dims8 b = true) {r c : Int} {x : Cell}
    (h : pyGet b r c = some x) : -8 ≤ r ∧ r < 8 ∧ -8 ≤ c ∧ c < 8 := by
  by_contra hcon
  push_neg at hcon
  rcases Decidable.em (-8 ≤ r ∧ r < 8) with hr | hr
  · have hc : c < -8 ∨ 8 ≤ c := by
      rcases Decidable.em (-8 ≤ c) with h1 | h1
      · right
        by_contra h2
        exact absurd (hcon hr.1 hr.2 h1) (by omega)
      · left; omega
    rw [pyGet_none_of_col hb hc] at h
    cases h
  · have hr' : r < -8 ∨ 8 ≤ r := by omega
    rw [pyGet_none_of_row hb hr'] at h
    cases h

/-- What one direction of a sliding-piece scan appends: moves from
`(row, col)` to the consecutive targets along `d`, stopping per the
blocking rules; all destinations are in bounds, snapshots match the
board, and only empty or enemy cells are entered. -/
theorem scanDir_appends {b : Board} {enemy : PColor} {row col : Int} {d : Int × Int}
    (hb : dims8 b = true) (hrow1 : 0 ≤ row) (hrow2 : row < 8)
    (hcol1 : 0 ≤ col) (hcol2 : col < 8) (hd : ¬(d.1 = 0 ∧ d.2 = 0)) :
    ∀ (ks : List Nat) (moves out : List Move),
      (∀ k ∈ ks, 1 ≤ k) → ks.Pairwise (· < ·) →
      scanDir b enemy row col d ks moves = some out →
      ∃ new, out = moves ++ new ∧ List.Pairwise endsNe2 new ∧
        ∀ m ∈ new,
          m.startRow = row ∧ m.startCol = col ∧
          (∃ k ∈ ks, m.endRow = row + d.1 * (k : Int) ∧
            m.endCol = col + d.2 * (k : Int)) ∧
          0 ≤ m.endRow ∧ m.endRow < 8 ∧ 0 ≤ m.endCol ∧ m.endCol < 8 ∧
          pyGet b m.startRow m.startCol = some m.pieceMoved ∧
          pyGet b m.endRow m.endCol = some m.pieceCaptured ∧
          (m.pieceCaptured = Cell.empty ∨ m.pieceCaptured.hasColor enemy = true)
  | [], moves, out, _, _, h => by
    rw [scanDir] at h
    cases h
    exact ⟨[], by simp, List.Pairwise.nil, by simp⟩
  | k :: ks, moves, out, hpos, hpair, h => by
    rw [scanDir] at h
    split at h
    case isTrue hin =>
      obtain ⟨hr1, hr2, hc1, hc2⟩ := hin
      rcases hcell : pyGet b (row + d.1 * (k : Int)) (col + d.2 * (k : Int))
        with _ | endPiece
      · rw [hcell] at h; cases h
      · rw [hcell] at h
        dsimp only at h
        split at h
        case isTrue hemp =>
          rcases hmk : mkMove (row, col) (row + d.1 * (k : Int), col + d.2 * (k : Int)) b
            with _ | m
          · rw [hmk] at h; cases h
          · rw [hmk] at h
            dsimp only at h
            obtain ⟨new, hout, hpw, hprops⟩ :=
              scanDir_appends hb hrow1 hrow2 hcol1 hcol2 hd ks (moves ++ [m]) out
                (fun j hj => hpos j (List.mem_cons_of_mem _ hj))
                (List.Pairwise.sublist (List.sublist_cons_self _ _) hpair) h
            obtain ⟨hs1, hs2, hs3, hs4, hpm, hpc⟩ := mkMove_some hmk
            dsimp only at hs1 hs2 hs3 hs4 hpm hpc
            have hcap : m.pieceCaptured = endPiece := by
              rw [hcell] at hpc
              exact ((Option.some.injEq _ _).mp hpc).symm
            refine ⟨m :: new, by simpa using hout, ?_, ?_⟩
            · refine List.Pairwise.cons (fun n hn => ?_) hpw
              obtain ⟨_, _, ⟨k', hk', hek', hec'⟩, _⟩ := hprops n hn
              have hkk : (k : Int) < (k' : Int) := by
                exact_mod_cast (List.pairwise_cons.mp hpair).1 k' hk'
              rcases Decidable.em (d.1 = 0) with hd1 | hd1
              · have hd2 : d.2 ≠ 0 := fun h2 => hd ⟨hd1, h2⟩
                right
                rw [hs4, hec']
                intro hcon
                have : d.2 * (k : Int) = d.2 * (k' : Int) := by omega
                exact absurd (mul_left_cancel₀ hd2 this) (by omega)
              · left
                rw [hs3, hek']
                intro hcon
                have : d.1 * (k : Int) = d.1 * (k' : Int) := by omega
                exact absurd (mul_left_cancel₀ hd1 this) (by omega)
            · intro n hn
              rcases List.mem_cons.mp hn with rfl | hn'
              · refine ⟨hs1, hs2, ⟨k, List.mem_cons_self _ _, hs3, hs4⟩,
                  by omega, by omega, by omega, by omega,
                  by rw [hs1, hs2]; exact hpm,
                  by rw [hs3, hs4, hcell, hcap], Or.inl (by rw [hcap, hemp])⟩
              · obtain ⟨p1, p2, ⟨k', hk', p3⟩, p4⟩ := hprops n hn'
                exact ⟨p1, p2, ⟨k', List.mem_cons_of_mem _ hk', p3⟩, p4⟩
        case isFalse hemp =>
          split at h
          case isTrue hene =>
            rcases hmk : mkMove (row, col) (row + d.1 * (k : Int), col + d.2 * (k : Int)) b
              with _ | m
            · rw [hmk] at h; cases h
            · rw [hmk] at h
              cases h
              obtain ⟨hs1, hs2, hs3, hs4, hpm, hpc⟩ := mkMove_some hmk
              dsimp only at hs1 hs2 hs3 hs4 hpm hpc
              have hcap : m.pieceCaptured = endPiece := by
                rw [hcell] at hpc
                exact ((Option.some.injEq _ _).mp hpc).symm
              refine ⟨[m], by simp, List.pairwise_singleton _ _, ?_⟩
              intro n hn
              rcases List.mem_singleton.mp hn with rfl
              exact ⟨hs1, hs2, ⟨k, List.mem_cons_self _ _, hs3, hs4⟩,
                by omega, by omega, by omega, by omega,
                by rw [hs1, hs2]; exact hpm,
                by rw [hs3, hs4, hcell, hcap], Or.inr (hcap ▸ hene)⟩
          case isFalse hene =>
            cases h
            exact ⟨[], by simp, List.Pairwise.nil, by simp⟩
    case isFalse hin =>
      cases h
      exact ⟨[], by simp, List.Pairwise.nil, by simp⟩

/-- The `for d in directions` loop of the sliding generators, assembled
over a direction list with pairwise disjoint targets. -/
theorem scanDirs_appends {b : Board} {enemy : PColor} {row col : Int}
    (hb : dims8 b = true) (hrow1 : 0 ≤ row) (hrow2 : row < 8)
    (hcol1 : 0 ≤ col) (hcol2 : col < 8) :
    ∀ (ds : List (Int × Int)) (moves out : List Move),
      (∀ d ∈ ds, ¬(d.1 = 0 ∧ d.2 = 0)) →
      List.Pairwise (dirTargetsDisjoint row col) ds →
      scanDirs b enemy row col ds moves = some out →
      ∃ new, out = moves ++ new ∧ List.Pairwise endsNe2 new ∧
        ∀ m ∈ new,
          m.startRow = row ∧ m.startCol = col ∧
          (∃ d ∈ ds, ∃ k : Nat, 1 ≤ k ∧ k ≤ 7 ∧
            m.endRow = row + d.1 * (k : Int) ∧ m.endCol = col + d.2 * (k : Int)) ∧
          0 ≤ m.endRow ∧ m.endRow < 8 ∧ 0 ≤ m.endCol ∧ m.endCol < 8 ∧
          pyGet b m.startRow m.startCol = some m.pieceMoved ∧
          pyGet b m.endRow m.endCol = some m.pieceCaptured ∧
          (m.pieceCaptured = Cell.empty ∨ m.pieceCaptured.hasColor enemy = true)
  | [], moves, out, _, _, h => by
    rw [scanDirs] at h
    cases h
    exact ⟨[], by simp, List.Pairwise.nil, by simp⟩
  | d :: ds, moves, out, hnz, hdisj, h => by
    rw [scanDirs] at h
    rcases h1 : scanDir b enemy row col d (List.range' 1 7) moves with _ | moves1
    · rw [h1] at h; cases h
    · rw [h1] at h
      dsimp only at h
      obtain ⟨new1, hout1, hpw1, hprops1⟩ :=
        scanDir_appends hb hrow1 hrow2 hcol1 hcol2
          (hnz d (List.mem_cons_self _ _)) (List.range' 1 7) moves moves1
          (by intro k hk; rcases List.mem_range'_1.mp hk with ⟨h2, _⟩; omega)
          (by decide) h1
      obtain ⟨new2, hout2, hpw2, hprops2⟩ :=
        scanDirs_appends hb hrow1 hrow2 hcol1 hcol2 ds moves1 out
          (fun d' hd' => hnz d' (List.mem_cons_of_mem _ hd'))
          (List.pairwise_cons.mp hdisj).2 h
      refine ⟨new1 ++ new2, by rw [hout2, hout1, List.append_assoc], ?_, ?_⟩
      · rw [List.pairwise_append]
        refine ⟨hpw1, hpw2, ?_⟩
        intro m hm n hn
        obtain ⟨_, _, ⟨k, hk, hek, hec⟩, _⟩ := hprops1 m hm
        obtain ⟨_, _, ⟨d', hd', k', hk'1, _, hek', hec'⟩, _⟩ := hprops2 n hn
        have hkr := List.mem_range'_1.mp hk
        have hdd := (List.pairwise_cons.mp hdisj).1 d' hd'
        have := hdd k k' (by omega) hk'1
        unfold endsNe2
        rw [hek, hec, hek', hec']
        tauto
      · intro m hm
        rcases List.mem_append.mp hm with hm1 | hm2
        · obtain ⟨p1, p2, ⟨k, hk, hek, hec⟩, p4⟩ := hprops1 m hm1
          have hkr := List.mem_range'_1.mp hk
          exact ⟨p1, p2, ⟨d, List.mem_cons_self _ _, k, by omega, by omega, hek, hec⟩, p4⟩
        · obtain ⟨p1, p2, ⟨d', hd', p3⟩, p4⟩ := hprops2 m hm2
          exact ⟨p1, p2, ⟨d', List.mem_cons_of_mem _ hd', p3⟩, p4⟩

theorem rookDirs_disjoint (row col : Int) :
    List.Pairwise (dirTargetsDisjoint row col) [(-1, 0), (0, -1), (1, 0), (0, 1)] := by
  refine List.Pairwise.cons ?_ (List.Pairwise.cons ?_ (List.Pairwise.cons ?_
    (List.pairwise_singleton _ _)))
  all_goals
    intro d' hd'
    fin_cases hd' <;>
      (intro k k' hk hk' hcon
       obtain ⟨h1, h2⟩ := hcon
       omega)

theorem bishopDirs_disjoint (row col : Int) :
    List.Pairwise (dirTargetsDisjoint row col) [(-1, -1), (-1, 1), (1, -1), (1, 1)] := by
  refine List.Pairwise.cons ?_ (List.Pairwise.cons ?_ (List.Pairwise.cons ?_
    (List.pairwise_singleton _ _)))
  all_goals
    intro d' hd'
    fin_cases hd' <;>
      (intro k k' hk hk' hcon
       obtain ⟨h1, h2⟩ := hcon
       omega)

theorem rook_bishop_disjoint (row col : Int) :
    ∀ d ∈ ([(-1, 0), (0, -1), (1, 0), (0, 1)] : List (Int × Int)),
      ∀ d' ∈ ([(-1, -1), (-1, 1), (1, -1), (1, 1)] : List (Int × Int)),
        dirTargetsDisjoint row col d d' := by
  intro d hd d' hd'
  fin_cases hd <;> fin_cases hd' <;>
    (intro k k' hk hk' hcon
     obtain ⟨h1, h2⟩ := hcon
     omega)

/-- What `getRookMoves` appends. -/
theorem getRookMoves_appends {b : Board} {w : Bool} {row col : Int}
    {moves out : List Move}
    (hb : dims8 b = true) (hrow1 : 0 ≤ row) (hrow2 : row < 8)
    (hcol1 : 0 ≤ col) (hcol2 : col < 8)
    (h : getRookMoves b w row col moves = some out) :
    ∃ new, out = moves ++ new ∧ List.Pairwise endsNe2 new ∧
      ∀ m ∈ new, MoveOK b w row col m ∧ 0 ≤ m.endRow ∧
        ∃ d ∈ ([(-1, 0), (0, -1), (1, 0), (0, 1)] : List (Int × Int)),
          ∃ k : Nat, 1 ≤ k ∧ k ≤ 7 ∧
            m.endRow = row + d.1 * (k : Int) ∧ m.endCol = col + d.2 * (k : Int) := by
  obtain ⟨new, hout, hpw, hprops⟩ :=
    scanDirs_appends hb hrow1 hrow2 hcol1 hcol2 _ moves out
      (by intro d hd; fin_cases hd <;> simp) (rookDirs_disjoint row col) h
  refine ⟨new, hout, hpw, fun m hm => ?_⟩
  obtain ⟨p1, p2, ⟨d, hd, k, hk1, hk2, hek, hec⟩, p4, p5, p6, p7, p8, p9, p10⟩ :=
    hprops m hm
  exact ⟨⟨p1, p2, by omega, p5, p6, p7, p8, p9, by cases w <;> exact hasColor_opp p10⟩,
    p4, d, hd, k, hk1, hk2, hek, hec⟩

/-- What `getBishopMoves` appends. -/
theorem getBishopMoves_appends {b : Board} {w : Bool} {row col : Int}
    {moves out : List Move}
    (hb : dims8 b = true) (hrow1 : 0 ≤ row) (hrow2 : row < 8)
    (hcol1 : 0 ≤ col) (hcol2 : col < 8)
    (h : getBishopMoves b w row col moves = some out) :
    ∃ new, out = moves ++ new ∧ List.Pairwise endsNe2 new ∧
      ∀ m ∈ new, MoveOK b w row col m ∧ 0 ≤ m.endRow ∧
        ∃ d ∈ ([(-1, -1), (-1, 1), (1, -1), (1, 1)] : List (Int × Int)),
          ∃ k : Nat, 1 ≤ k ∧ k ≤ 7 ∧
            m.endRow = row + d.1 * (k : Int) ∧ m.endCol = col + d.2 * (k : Int) := by
  obtain ⟨new, hout, hpw, hprops⟩ :=
    scanDirs_appends hb hrow1 hrow2 hcol1 hcol2 _ moves out
      (by intro d hd; fin_cases hd <;> simp) (bishopDirs_disjoint row col) h
  refine ⟨new, hout, hpw, fun m hm => ?_⟩
  obtain ⟨p1, p2, ⟨d, hd, k, hk1, hk2, hek, hec⟩, p4, p5, p6, p7, p8, p9, p10⟩ :=
    hprops m hm
  exact ⟨⟨p1, p2, by omega, p5, p6, p7, p8, p9, by cases w <;> exact hasColor_opp p10⟩,
    p4, d, hd, k, hk1, hk2, hek, hec⟩

/-- What `getQueenMoves` appends: the rook scan then the bishop scan. -/
theorem getQueenMoves_appends {b : Board} {w : Bool} {row col : Int}
    {moves out : List Move}
    (hb : dims8 b = true) (hrow1 : 0 ≤ row) (hrow2 : row < 8)
    (hcol1 : 0 ≤ col) (hcol2 : col < 8)
    (h : getQueenMoves b w row col moves = some out) :
    ∃ new, out = moves ++ new ∧ List.Pairwise endsNe2 new ∧
      ∀ m ∈ new, MoveOK b w row col m ∧ 0 ≤ m.endRow := by
  unfold getQueenMoves at h
  rcases h1 : getRookMoves b w row col moves with _ | moves1
  · rw [h1] at h; cases h
  · rw [h1] at h
    obtain ⟨new1, hout1, hpw1, hprops1⟩ :=
      getRookMoves_appends hb hrow1 hrow2 hcol1 hcol2 h1
    obtain ⟨new2, hout2, hpw2, hprops2⟩ :=
      getBishopMoves_appends hb hrow1 hrow2 hcol1 hcol2 h
    refine ⟨new1 ++ new2, by rw [hout2, hout1, List.append_assoc], ?_, ?_⟩
    · rw [List.pairwise_append]
      refine ⟨hpw1, hpw2, ?_⟩
      intro m hm n hn
      obtain ⟨_, _, d, hd, k, hk1, _, hek, hec⟩ := hprops1 m hm
      obtain ⟨_, _, d', hd', k', hk'1, _, hek', hec'⟩ := hprops2 n hn
      have := rook_bishop_disjoint row col d hd d' hd' k k' hk1 hk'1
      unfold endsNe2
      rw [hek, hec, hek', hec']
      tauto
    · intro m hm
      rcases List.mem_append.mp hm with hm1 | hm2
      · exact ⟨(hprops1 m hm1).1, (hprops1 m hm1).2.1⟩
      · exact ⟨(hprops2 m hm2).1, (hprops2 m hm2).2.1⟩

/-- What the shared knight/king offset loop appends. -/
theorem offsetMoves_appends {b : Board} {ally : PColor} {row col : Int}
    (hb : dims8 b = true) (hrow1 : 0 ≤ row) (hrow2 : row < 8)
    (hcol1 : 0 ≤ col) (hcol2 : col < 8) :
    ∀ (os : List (Int × Int)) (moves out : List Move),
      os.Pairwise (· ≠ ·) →
      offsetMoves b ally row col os moves = some out →
      ∃ new, out = moves ++ new ∧ List.Pairwise endsNe2 new ∧
        ∀ m ∈ new,
          m.startRow = row ∧ m.startCol = col ∧
          (∃ o ∈ os, m.endRow = row + o.1 ∧ m.endCol = col + o.2) ∧
          0 ≤ m.endRow ∧ m.endRow < 8 ∧ 0 ≤ m.endCol ∧ m.endCol < 8 ∧
          pyGet b m.startRow m.startCol = some m.pieceMoved ∧
          pyGet b m.endRow m.endCol = some m.pieceCaptured ∧
          m.pieceCaptured.hasColor ally = false
  | [], moves, out, _, h => by
    rw [offsetMoves] at h
    cases h
    exact ⟨[], by simp, List.Pairwise.nil, by simp⟩
  | o :: os, moves, out, hpair, h => by
    rw [offsetMoves] at h
    split at h
    case isTrue hin =>
      obtain ⟨hr1, hr2, hc1, hc2⟩ := hin
      rcases hcell : pyGet b (row + o.1) (col + o.2) with _ | endPiece
      · rw [hcell] at h; cases h
      · rw [hcell] at h
        dsimp only at h
        split at h
        case isTrue hally =>
          obtain ⟨new, hout, hpw, hprops⟩ :=
            offsetMoves_appends hb hrow1 hrow2 hcol1 hcol2 os moves out
              (List.Pairwise.sublist (List.sublist_cons_self _ _) hpair) h
          refine ⟨new, hout, hpw, fun m hm => ?_⟩
          obtain ⟨p1, p2, ⟨o', ho', p3⟩, p4⟩ := hprops m hm
          exact ⟨p1, p2, ⟨o', List.mem_cons_of_mem _ ho', p3⟩, p4⟩
        case isFalse hally =>
          rcases hmk : mkMove (row, col) (row + o.1, col + o.2) b with _ | m
          · rw [hmk] at h; cases h
          · rw [hmk] at h
            obtain ⟨new, hout, hpw, hprops⟩ :=
              offsetMoves_appends hb hrow1 hrow2 hcol1 hcol2 os (moves ++ [m]) out
                (List.Pairwise.sublist (List.sublist_cons_self _ _) hpair) h
            obtain ⟨hs1, hs2, hs3, hs4, hpm, hpc⟩ := mkMove_some hmk
            dsimp only at hs1 hs2 hs3 hs4 hpm hpc
            have hcap : m.pieceCaptured = endPiece := by
              rw [hcell] at hpc
              exact ((Option.some.injEq _ _).mp hpc).symm
            refine ⟨m :: new, by simpa using hout, ?_, ?_⟩
            · refine List.Pairwise.cons (fun n hn => ?_) hpw
              obtain ⟨_, _, ⟨o', ho', hek', hec'⟩, _⟩ := hprops n hn
              have hoo : o ≠ o' := (List.pairwise_cons.mp hpair).1 o' ho'
              unfold endsNe2
              rw [hs3, hs4, hek', hec']
              by_contra hcon
              push_neg at hcon
              exact hoo (Prod.ext (by omega) (by omega))
            · intro n hn
              rcases List.mem_cons.mp hn with rfl | hn'
              · refine ⟨hs1, hs2, ⟨o, List.mem_cons_self _ _, hs3, hs4⟩,
                  by omega, by omega, by omega, by omega,
                  by rw [hs1, hs2]; exact hpm,
                  by rw [hs3, hs4, hcell, hcap],
                  by rw [hcap]; exact Bool.not_eq_true _ ▸ hally⟩
              · obtain ⟨p1, p2, ⟨o', ho', p3⟩, p4⟩ := hprops n hn'
                exact ⟨p1, p2, ⟨o', List.mem_cons_of_mem _ ho', p3⟩, p4⟩
    case isFalse hin =>
      obtain ⟨new, hout, hpw, hprops⟩ :=
        offsetMoves_appends hb hrow1 hrow2 hcol1 hcol2 os moves out
          (List.Pairwise.sublist (List.sublist_cons_self _ _) hpair) h
      refine ⟨new, hout, hpw, fun m hm => ?_⟩
      obtain ⟨p1, p2, ⟨o', ho', p3⟩, p4⟩ := hprops m hm
      exact ⟨p1, p2, ⟨o', List.mem_cons_of_mem _ ho', p3⟩, p4⟩

/-- What `getKnightMoves` appends. -/
theorem getKnightMoves_appends {b : Board} {w : Bool} {row col : Int}
    {moves out : List Move}
    (hb : dims8 b = true) (hrow1 : 0 ≤ row) (hrow2 : row < 8)
    (hcol1 : 0 ≤ col) (hcol2 : col < 8)
    (h : getKnightMoves b w row col moves = some out) :
    ∃ new, out = moves ++ new ∧ List.Pairwise endsNe2 new ∧
      ∀ m ∈ new, MoveOK b w row col m ∧ 0 ≤ m.endRow := by
  obtain ⟨new, hout, hpw, hprops⟩ :=
    offsetMoves_appends hb hrow1 hrow2 hcol1 hcol2 _ moves out (by decide) h
  refine ⟨new, hout, hpw, fun m hm => ?_⟩
  obtain ⟨p1, p2, _, p4, p5, p6, p7, p8, p9, p10⟩ := hprops m hm
  exact ⟨⟨p1, p2, by omega, p5, p6, p7, p8, p9, p10⟩, p4⟩

/-- What `getKingMoves` appends. -/
theorem getKingMoves_appends {b : Board} {w : Bool} {row col : Int}
    {moves out : List Move}
    (hb : dims8 b = true) (hrow1 : 0 ≤ row) (hrow2 : row < 8)
    (hcol1 : 0 ≤ col) (hcol2 : col < 8)
    (h : getKingMoves b w row col moves = some out) :
    ∃ new, out = moves ++ new ∧ List.Pairwise endsNe2 new ∧
      ∀ m ∈ new, MoveOK b w row col m ∧ 0 ≤ m.endRow := by
  obtain ⟨new, hout, hpw, hprops⟩ :=
    offsetMoves_appends hb hrow1 hrow2 hcol1 hcol2 _ moves out (by decide) h
  refine ⟨new, hout, hpw, fun m hm => ?_⟩
  obtain ⟨p1, p2, _, p4, p5, p6, p7, p8, p9, p10⟩ := hprops m hm
  exact ⟨⟨p1, p2, by omega, p5, p6, p7, p8, p9, p10⟩, p4⟩

/-- What the pawn advance phase appends: one or two forward moves onto
empty squares, in the marching direction; destinations share the pawn's
column. -/
theorem pawnFwd_appends {b : Board} {dir startRank row col : Int}
    {moves out : List Move}
    (hb : dims8 b = true) (hrow1 : 0 ≤ row) (hrow2 : row < 8)
    (hcol1 : 0 ≤ col) (hcol2 : col < 8)
    (hdir : (dir = -1 ∧ startRank = 6) ∨ (dir = 1 ∧ startRank = 1))
    (h : pawnFwd b dir startRank row col moves = some out) :
    ∃ new, out = moves ++ new ∧ List.Pairwise endsNe2 new ∧
      ∀ m ∈ new,
        m.startRow = row ∧ m.startCol = col ∧ m.endCol = col ∧
        (m.endRow = row + dir ∨ m.endRow = row + 2 * dir) ∧
        -1 ≤ m.endRow ∧ m.endRow < 8 ∧
        pyGet b m.startRow m.startCol = some m.pieceMoved ∧
        pyGet b m.endRow m.endCol = some m.pieceCaptured ∧
        m.pieceCaptured = Cell.empty := by
  unfold pawnFwd at h
  rcases h1 : pyGet b (row + dir) col with _ | fwd
  · rw [h1] at h; cases h
  · rw [h1] at h
    dsimp only at h
    have hb1 := pyGet_some_bounds hb h1
    split at h
    case isFalse hne =>
      cases h
      exact ⟨[], by simp, List.Pairwise.nil, by simp⟩
    case isTrue hemp =>
      rcases hmk : mkMove (row, col) (row + dir, col) b with _ | m
      · rw [hmk] at h; cases h
      · rw [hmk] at h
        dsimp only at h
        obtain ⟨hs1, hs2, hs3, hs4, hpm, hpc⟩ := mkMove_some hmk
        dsimp only at hs1 hs2 hs3 hs4 hpm hpc
        have hcap : m.pieceCaptured = Cell.empty := by
          rw [h1] at hpc
          rw [← hemp]
          exact ((Option.some.injEq _ _).mp hpc).symm
        have hmprops : m.startRow = row ∧ m.startCol = col ∧ m.endCol = col ∧
            (m.endRow = row + dir ∨ m.endRow = row + 2 * dir) ∧
            -1 ≤ m.endRow ∧ m.endRow < 8 ∧
            pyGet b m.startRow m.startCol = some m.pieceMoved ∧
            pyGet b m.endRow m.endCol = some m.pieceCaptured ∧
            m.pieceCaptured = Cell.empty :=
          ⟨hs1, hs2, hs4, Or.inl hs3, by omega, by omega,
            by rw [hs1, hs2]; exact hpm, by rw [hs3, hs4]; exact hpc ▸ hpc, hcap⟩
        split at h
        case isFalse hrk =>
          cases h
          refine ⟨[m], by simp, List.pairwise_singleton _ _, ?_⟩
          intro n hn
          rcases List.mem_singleton.mp hn with rfl
          exact hmprops
        case isTrue hrk =>
          rcases h2 : pyGet b (row + 2 * dir) col with _ | fwd2
          · rw [h2] at h; cases h
          · rw [h2] at h
            dsimp only at h
            split at h
            case isFalse hne2 =>
              cases h
              refine ⟨[m], by simp, List.pairwise_singleton _ _, ?_⟩
              intro n hn
              rcases List.mem_singleton.mp hn with rfl
              exact hmprops
            case isTrue hemp2 =>
              rcases hmk2 : mkMove (row, col) (row + 2 * dir, col) b with _ | m2
              · rw [hmk2] at h; cases h
              · rw [hmk2] at h
                cases h
                obtain ⟨ht1, ht2, ht3, ht4, hqm, hqc⟩ := mkMove_some hmk2
                dsimp only at ht1 ht2 ht3 ht4 hqm hqc
                have hcap2 : m2.pieceCaptured = Cell.empty := by
                  rw [h2] at hqc
                  rw [← hemp2]
                  exact ((Option.some.injEq _ _).mp hqc).symm
                refine ⟨[m, m2], by simp, ?_, ?_⟩
                · refine List.pairwise_cons.mpr ⟨?_, List.pairwise_singleton _ _⟩
                  intro n hn
                  rcases List.mem_singleton.mp hn with rfl
                  left
                  rw [hs3, ht3]
                  omega
                · intro n hn
                  rcases List.mem_cons.mp hn with rfl | hn'
                  · exact hmprops
                  · rcases List.mem_singleton.mp hn' with rfl
                    exact ⟨ht1, ht2, ht4, Or.inr ht3, by omega, by omega,
                      by rw [ht1, ht2]; exact hqm, by rw [ht3, ht4]; exact hqc,
                      hcap2⟩

/-- What a pawn capture phase appends (left version): at most one
diagonal capture of an enemy piece. -/
theorem pawnCapL_appends {b : Board} {enemy : PColor} {dir row col : Int}
    {moves out : List Move}
    (hb : dims8 b = true) (hrow1 : 0 ≤ row) (hrow2 : row < 8)
    (hcol1 : 0 ≤ col) (hcol2 : col < 8) (hdir : dir = -1 ∨ dir = 1)
    (h : pawnCapL b enemy dir row col moves = some out) :
    ∃ new, out = moves ++ new ∧ new.length ≤ 1 ∧
      ∀ m ∈ new,
        m.startRow = row ∧ m.startCol = col ∧
        m.endRow = row + dir ∧ m.endCol = col - 1 ∧
        -1 ≤ m.endRow ∧ m.endRow < 8 ∧ 0 ≤ m.endCol ∧ m.endCol < 8 ∧
        pyGet b m.startRow m.startCol = some m.pieceMoved ∧
        pyGet b m.endRow m.endCol = some m.pieceCaptured ∧
        m.pieceCaptured.hasColor enemy = true := by
  unfold pawnCapL at h
  split at h
  case isFalse hg =>
    cases h
    exact ⟨[], by simp, by simp, by simp⟩
  case isTrue hg =>
    rcases h1 : pyGet b (row + dir) (col - 1) with _ | sq
    · rw [h1] at h; cases h
    · rw [h1] at h
      dsimp only at h
      have hb1 := pyGet_some_bounds hb h1
      split at h
      case isFalse hen =>
        cases h
        exact ⟨[], by simp, by simp, by simp⟩
      case isTrue hen =>
        rcases hmk : mkMove (row, col) (row + dir, col - 1) b with _ | m
        · rw [hmk] at h; cases h
        · rw [hmk] at h
          cases h
          obtain ⟨hs1, hs2, hs3, hs4, hpm, hpc⟩ := mkMove_some hmk
          dsimp only at hs1 hs2 hs3 hs4 hpm hpc
          have hcap : m.pieceCaptured = sq := by
            rw [h1] at hpc
            exact ((Option.some.injEq _ _).mp hpc).symm
          refine ⟨[m], by simp, by simp, ?_⟩
          intro n hn
          rcases List.mem_singleton.mp hn with rfl
          exact ⟨hs1, hs2, hs3, hs4, by omega, by omega, by omega, by omega,
            by rw [hs1, hs2]; exact hpm, by rw [hs3, hs4]; exact hpc,
            by rw [hcap]; exact hen⟩

/-- What a pawn capture phase appends (right version). -/
theorem pawnCapR_appends {b : Board} {enemy : PColor} {dir row col : Int}
    {moves out : List Move}
    (hb : dims8 b = true) (hrow1 : 0 ≤ row) (hrow2 : row < 8)
    (hcol1 : 0 ≤ col) (hcol2 : col < 8) (hdir : dir = -1 ∨ dir = 1)
    (h : pawnCapR b enemy dir row col moves = some out) :
    ∃ new, out = moves ++ new ∧ new.length ≤ 1 ∧
      ∀ m ∈ new,
        m.startRow = row ∧ m.startCol = col ∧
        m.endRow = row + dir ∧ m.endCol = col + 1 ∧
        -1 ≤ m.endRow ∧ m.endRow < 8 ∧ 0 ≤ m.endCol ∧ m.endCol < 8 ∧
        pyGet b m.startRow m.startCol = some m.pieceMoved ∧
        pyGet b m.endRow m.endCol = some m.pieceCaptured ∧
        m.pieceCaptured.hasColor enemy = true := by
  unfold pawnCapR at h
  split at h
  case isFalse hg =>
    cases h
    exact ⟨[], by simp, by simp, by simp⟩
  case isTrue hg =>
    rcases h1 : pyGet b (row + dir) (col + 1) with _ | sq
    · rw [h1] at h; cases h
    · rw [h1] at h
      dsimp only at h
      have hb1 := pyGet_some_bounds hb h1
      split at h
      case isFalse hen =>
        cases h
        exact ⟨[], by simp, by simp, by simp⟩
      case isTrue hen =>
        rcases hmk : mkMove (row, col) (row + dir, col + 1) b with _ | m
        · rw [hmk] at h; cases h
        · rw [hmk] at h
          cases h
          obtain ⟨hs1, hs2, hs3, hs4, hpm, hpc⟩ := mkMove_some hmk
          dsimp only at hs1 hs2 hs3 hs4 hpm hpc
          have hcap : m.pieceCaptured = sq := by
            rw [h1] at hpc
            exact ((Option.some.injEq _ _).mp hpc).symm
          refine ⟨[m], by simp, by simp, ?_⟩
          intro n hn
          rcases List.mem_singleton.mp hn with rfl
          exact ⟨hs1, hs2, hs3, hs4, by omega, by omega, by omega, by omega,
            by rw [hs1, hs2]; exact hpm, by rw [hs3, hs4]; exact hpc,
            by rw [hcap]; exact hen⟩

theorem pairwise_of_short {R : Move → Move → Prop} {l : List Move}
    (h : l.length ≤ 1) : l.Pairwise R := by
  rcases l with _ | ⟨x, _ | ⟨y, ys⟩⟩
  · exact List.Pairwise.nil
  · exact List.pairwise_singleton _ _
  · simp at h

set_option maxHeartbeats 1600000 in
/-- What `getPawnMoves` appends. -/
theorem getPawnMoves_appends {b : Board} {w : Bool} {row col : Int}
    {moves out : List Move}
    (hb : dims8 b = true) (hrow1 : 0 ≤ row) (hrow2 : row < 8)
    (hcol1 : 0 ≤ col) (hcol2 : col < 8)
    (h : getPawnMoves b w row col moves = some out) :
    ∃ new, out = moves ++ new ∧ List.Pairwise endsNe2 new ∧
      ∀ m ∈ new, MoveOK b w row col m := by
  have main : ∀ (dir startRank : Int) (enemy : PColor),
      ((dir = -1 ∧ startRank = 6) ∨ (dir = 1 ∧ startRank = 1)) →
      ∀ moves1 moves2,
      pawnFwd b dir startRank row col moves = some moves1 →
      pawnCapL b enemy dir row col moves1 = some moves2 →
      pawnCapR b enemy dir row col moves2 = some out →
      ∃ new, out = moves ++ new ∧ List.Pairwise endsNe2 new ∧
        ∀ m ∈ new,
          m.startRow = row ∧ m.startCol = col ∧
          -1 ≤ m.endRow ∧ m.endRow < 8 ∧ 0 ≤ m.endCol ∧ m.endCol < 8 ∧
          pyGet b m.startRow m.startCol = some m.pieceMoved ∧
          pyGet b m.endRow m.endCol = some m.pieceCaptured ∧
          (m.pieceCaptured = Cell.empty ∨ m.pieceCaptured.hasColor enemy = true) := by
    intro dir startRank enemy hdir moves1 moves2 hF hL hR
    obtain ⟨newF, houtF, hpwF, hpropsF⟩ :=
      pawnFwd_appends hb hrow1 hrow2 hcol1 hcol2 hdir hF
    obtain ⟨newL, houtL, hlenL, hpropsL⟩ :=
      pawnCapL_appends hb hrow1 hrow2 hcol1 hcol2 (by tauto) hL
    obtain ⟨newR, houtR, hlenR, hpropsR⟩ :=
      pawnCapR_appends hb hrow1 hrow2 hcol1 hcol2 (by tauto) hR
    refine ⟨newF ++ newL ++ newR, by rw [houtR, houtL, houtF]; simp, ?_, ?_⟩
    · rw [List.pairwise_append, List.pairwise_append]
      refine ⟨⟨hpwF, pairwise_of_short hlenL, fun m hm n hn => ?_⟩,
        pairwise_of_short hlenR, fun m hm n hn => ?_⟩
      · obtain ⟨_, _, hecF, _⟩ := hpropsF m hm
        obtain ⟨_, _, _, hecL, _⟩ := hpropsL n hn
        right
        rw [hecF, hecL]
        omega
      · rcases List.mem_append.mp hm with hmF | hmL
        · obtain ⟨_, _, hecF, _⟩ := hpropsF m hmF
          obtain ⟨_, _, _, hecR, _⟩ := hpropsR n hn
          right
          rw [hecF, hecR]
          omega
        · obtain ⟨_, _, _, hecL, _⟩ := hpropsL m hmL
          obtain ⟨_, _, _, hecR, _⟩ := hpropsR n hn
          right
          rw [hecL, hecR]
          omega
    · intro m hm
      rcases List.mem_append.mp hm with hm' | hmR
      · rcases List.mem_append.mp hm' with hmF | hmL
        · obtain ⟨p1, p2, p3, p4, p5, p6, p7, p8, p9⟩ := hpropsF m hmF
          exact ⟨p1, p2, p5, p6, by omega, by omega, p7, p8, Or.inl p9⟩
        · obtain ⟨p1, p2, _, _, p5, p6, p7, p8, p9, p10, p11⟩ := hpropsL m hmL
          exact ⟨p1, p2, p5, p6, p7, p8, p9, p10, Or.inr p11⟩
      · obtain ⟨p1, p2, _, _, p5, p6, p7, p8, p9, p10, p11⟩ := hpropsR m hmR
        exact ⟨p1, p2, p5, p6, p7, p8, p9, p10, Or.inr p11⟩
  unfold getPawnMoves at h
  split at h
  case isTrue hw =>
    rcases h1 : pawnFwd b (-1) 6 row col moves with _ | moves1
    · rw [h1] at h; cases h
    · rw [h1] at h
      dsimp only at h
      rcases h2 : pawnCapL b PColor.black (-1) row col moves1 with _ | moves2
      · rw [h2] at h; cases h
      · rw [h2] at h
        dsimp only at h
        obtain ⟨new, hout, hpw, hprops⟩ :=
          main (-1) 6 PColor.black (Or.inl ⟨rfl, rfl⟩) moves1 moves2 h1 h2 h
        refine ⟨new, hout, hpw, fun m hm => ?_⟩
        obtain ⟨p1, p2, p3, p4, p5, p6, p7, p8, p9⟩ := hprops m hm
        subst hw
        exact ⟨p1, p2, p3, p4, p5, p6, p7, p8, @hasColor_opp _ true p9⟩
  case isFalse hw =>
    rcases h1 : pawnFwd b 1 1 row col moves with _ | moves1
    · rw [h1] at h; cases h
    · rw [h1] at h
      dsimp only at h
      rcases h2 : pawnCapL b PColor.white 1 row col moves1 with _ | moves2
      · rw [h2] at h; cases h
      · rw [h2] at h
        dsimp only at h
        obtain ⟨new, hout, hpw, hprops⟩ :=
          main 1 1 PColor.white (Or.inr ⟨rfl, rfl⟩) moves1 moves2 h1 h2 h
        refine ⟨new, hout, hpw, fun m hm => ?_⟩
        obtain ⟨p1, p2, p3, p4, p5, p6, p7, p8, p9⟩ := hprops m hm
        have hw' : w = false := by
          cases w
          · rfl
          · exact absurd rfl hw
        subst hw'
        exact ⟨p1, p2, p3, p4, p5, p6, p7, p8, @hasColor_opp _ false p9⟩

/-- Moves generated at different squares, or at the same square with
different destinations, have different identifiers. -/
theorem IDne_of_moves {b : Board} {w : Bool} {r1 c1 r2 c2 : Int} {m n : Move}
    (h1 : MoveOK b w r1 c1 m) (h2 : MoveOK b w r2 c2 n)
    (hb1 : 0 ≤ r1 ∧ r1 < 8 ∧ 0 ≤ c1 ∧ c1 < 8)
    (hb2 : 0 ≤ r2 ∧ r2 < 8 ∧ 0 ≤ c2 ∧ c2 < 8)
    (hcase : (r1, c1) ≠ (r2, c2) ∨ endsNe2 m n) : m.moveID ≠ n.moveID := by
  intro heq
  have hco := moveID_inj (coordOK_of_MoveOK hb1.1 hb1.2.1 hb1.2.2.1 hb1.2.2.2 h1)
    (coordOK_of_MoveOK hb2.1 hb2.2.1 hb2.2.2.1 hb2.2.2.2 h2) heq
  obtain ⟨hm1, hm2, _⟩ := h1
  obtain ⟨hn1, hn2, _⟩ := h2
  rcases hcase with hsq | hends
  · exact hsq (Prod.ext (by rw [← hm1, ← hn1, hco.1]) (by rw [← hm2, ← hn2, hco.2.1]))
  · rcases hends with he | he
    · exact he hco.2.2.1
    · exact he hco.2.2.2

/-- What one square's dispatch appends. -/
theorem genSquare_appends {b : Board} {w : Bool} {r c : Nat} {cell : Cell}
    {moves out : List Move}
    (hb : dims8 b = true) (hr : r < 8) (hc : c < 8)
    (hcell : bget b r c = some cell)
    (h : genSquare b w r c cell moves = some out) :
    ∃ new, out = moves ++ new ∧ List.Pairwise endsNe2 new ∧
      ∀ m ∈ new, SqMoveOK b w (r : Int) (c : Int) m := by
  have hr' : ((r : Nat) : Int) < 8 := by exact_mod_cast hr
  have hc' : ((c : Nat) : Int) < 8 := by exact_mod_cast hc
  have hr0 : (0 : Int) ≤ (r : Nat) := Int.natCast_nonneg r
  have hc0 : (0 : Int) ≤ (c : Nat) := Int.natCast_nonneg c
  unfold genSquare at h
  cases cell with
  | empty =>
    cases h
    exact ⟨[], by simp, List.Pairwise.nil, by simp⟩
  | piece pc k =>
    dsimp only at h
    rcases Decidable.em ((pc = PColor.white ∧ w = true) ∨
        (pc = PColor.black ∧ w = false)) with hcolor | hcolor
    · rw [if_pos hcolor] at h
      unfold moveFunction at h
      have hpcc : pc = (if w then PColor.white else PColor.black) := by
        rcases hcolor with ⟨rfl, rfl⟩ | ⟨rfl, rfl⟩ <;> rfl
      cases k
      · obtain ⟨new, a1, a2, a3⟩ := getPawnMoves_appends hb hr0 hr' hc0 hc' h
        refine ⟨new, a1, a2, fun m hm => ⟨a3 m hm, Or.inr ?_⟩⟩
        have hmv := (a3 m hm).2.2.2.2.2.2.1
        rw [(a3 m hm).1, (a3 m hm).2.1, pyGet_natCast hb hr hc, hcell] at hmv
        rw [← hpcc]
        exact ((Option.some.injEq _ _).mp hmv).symm
      · exact getRookMoves_appends hb hr0 hr' hc0 hc' h |>.imp
          (fun new ⟨a1, a2, a3⟩ =>
            ⟨a1, a2, fun m hm => ⟨(a3 m hm).1, Or.inl (a3 m hm).2.1⟩⟩)
      · exact getKnightMoves_appends hb hr0 hr' hc0 hc' h |>.imp
          (fun new ⟨a1, a2, a3⟩ =>
            ⟨a1, a2, fun m hm => ⟨(a3 m hm).1, Or.inl (a3 m hm).2⟩⟩)
      · exact getBishopMoves_appends hb hr0 hr' hc0 hc' h |>.imp
          (fun new ⟨a1, a2, a3⟩ =>
            ⟨a1, a2, fun m hm => ⟨(a3 m hm).1, Or.inl (a3 m hm).2.1⟩⟩)
      · exact getQueenMoves_appends hb hr0 hr' hc0 hc' h |>.imp
          (fun new ⟨a1, a2, a3⟩ =>
            ⟨a1, a2, fun m hm => ⟨(a3 m hm).1, Or.inl (a3 m hm).2⟩⟩)
      · exact getKingMoves_appends hb hr0 hr' hc0 hc' h |>.imp
          (fun new ⟨a1, a2, a3⟩ =>
            ⟨a1, a2, fun m hm => ⟨(a3 m hm).1, Or.inl (a3 m hm).2⟩⟩)
    · rw [if_neg hcolor] at h
      cases h
      exact ⟨[], by simp, List.Pairwise.nil, by simp⟩

/-- What the inner column loop appends: identifier-distinct moves from
the listed squares of row `r`. -/
theorem scanRow_appends {b : Board} {w : Bool} {r : Nat}
    (hb : dims8 b = true) (hr : r < 8) :
    ∀ (cs : List Nat) (moves out : List Move),
      (∀ c ∈ cs, c < 8) → cs.Pairwise (· < ·) →
      scanRow b w r cs moves = some out →
      ∃ new, out = moves ++ new ∧
        List.Pairwise (fun m n => m.moveID ≠ n.moveID) new ∧
        ∀ m ∈ new, ∃ c, c ∈ cs ∧ c < 8 ∧ SqMoveOK b w (r : Int) (c : Int) m
  | [], moves, out, _, _, h => by
    rw [scanRow] at h
    cases h
    exact ⟨[], by simp, List.Pairwise.nil, by simp⟩
  | c :: cs, moves, out, hlt, hpair, h => by
    rw [scanRow] at h
    rcases hcell : bget b r c with _ | cell
    · rw [hcell] at h; cases h
    · rw [hcell] at h
      dsimp only at h
      rcases hgen : genSquare b w r c cell moves with _ | moves1
      · rw [hgen] at h; cases h
      · rw [hgen] at h
        have hc := hlt c (List.mem_cons_self _ _)
        obtain ⟨new1, hout1, hpw1, hprops1⟩ := genSquare_appends hb hr hc hcell hgen
        obtain ⟨new2, hout2, hpw2, hprops2⟩ :=
          scanRow_appends hb hr cs moves1 out
            (fun c' hc' => hlt c' (List.mem_cons_of_mem _ hc'))
            (List.Pairwise.sublist (List.sublist_cons_self _ _) hpair) h
        have hbnd : ∀ c' : Nat, c' < 8 →
            (0 : Int) ≤ (r : Nat) ∧ ((r : Nat) : Int) < 8 ∧
            (0 : Int) ≤ (c' : Nat) ∧ ((c' : Nat) : Int) < 8 := by
          intro c' hc'
          exact ⟨Int.natCast_nonneg r, by exact_mod_cast hr,
            Int.natCast_nonneg c', by exact_mod_cast hc'⟩
        refine ⟨new1 ++ new2, by rw [hout2, hout1, List.append_assoc], ?_, ?_⟩
        · rw [List.pairwise_append]
          refine ⟨List.Pairwise.imp_of_mem (fun hm hn hR =>
              IDne_of_moves (hprops1 _ hm).1 (hprops1 _ hn).1 (hbnd c hc) (hbnd c hc)
                (Or.inr hR)) hpw1, hpw2, ?_⟩
          intro m hm n hn
          obtain ⟨c', hc'1, hc'2, hmok'⟩ := hprops2 n hn
          have hne : c ≠ c' := by
            have := (List.pairwise_cons.mp hpair).1 c' hc'1
            omega
          refine IDne_of_moves (hprops1 _ hm).1 hmok'.1 (hbnd c hc) (hbnd c' hc'2)
            (Or.inl ?_)
          intro hcon
          apply hne
          have h2 := congrArg Prod.snd hcon
          dsimp only at h2
          exact_mod_cast h2
        · intro m hm
          rcases List.mem_append.mp hm with hm1 | hm2
          · exact ⟨c, List.mem_cons_self _ _, hc, hprops1 m hm1⟩
          · obtain ⟨c', hc'1, hc'2, hmok'⟩ := hprops2 m hm2
            exact ⟨c', List.mem_cons_of_mem _ hc'1, hc'2, hmok'⟩

/-- What the outer row loop appends. -/
theorem scanBoard_appends {b : Board} {w : Bool}
    (hb : dims8 b = true) :
    ∀ (rs : List Nat) (moves out : List Move),
      (∀ r ∈ rs, r < 8) → rs.Pairwise (· < ·) →
      scanBoard b w rs moves = some out →
      ∃ new, out = moves ++ new ∧
        List.Pairwise (fun m n => m.moveID ≠ n.moveID) new ∧
        ∀ m ∈ new, ∃ r c : Nat, r ∈ rs ∧ r < 8 ∧ c < 8 ∧
          SqMoveOK b w (r : Int) (c : Int) m
  | [], moves, out, _, _, h => by
    rw [scanBoard] at h
    cases h
    exact ⟨[], by simp, List.Pairwise.nil, by simp⟩
  | r :: rs, moves, out, hlt, hpair, h => by
    rw [scanBoard] at h
    rcases hrow : b.get? r with _ | rowL
    · rw [hrow] at h; cases h
    · rw [hrow] at h
      dsimp only at h
      rcases hsc : scanRow b w r (List.range rowL.length) moves with _ | moves1
      · rw [hsc] at h; cases h
      · rw [hsc] at h
        have hr := hlt r (List.mem_cons_self _ _)
        obtain ⟨new1, hout1, hpw1, hprops1⟩ :=
          scanRow_appends hb hr (List.range rowL.length) moves moves1
            (by intro c hc
                rw [List.mem_range] at hc
                rw [dims8_rowlen hb hrow] at hc
                exact hc)
            (List.pairwise_lt_range _) hsc
        obtain ⟨new2, hout2, hpw2, hprops2⟩ :=
          scanBoard_appends hb rs moves1 out
            (fun r' hr' => hlt r' (List.mem_cons_of_mem _ hr'))
            (List.Pairwise.sublist (List.sublist_cons_self _ _) hpair) h
        have hbnd : ∀ r' c' : Nat, r' < 8 → c' < 8 →
            (0 : Int) ≤ (r' : Nat) ∧ ((r' : Nat) : Int) < 8 ∧
            (0 : Int) ≤ (c' : Nat) ∧ ((c' : Nat) : Int) < 8 := by
          intro r' c' hr' hc'
          exact ⟨Int.natCast_nonneg r', by exact_mod_cast hr',
            Int.natCast_nonneg c', by exact_mod_cast hc'⟩
        refine ⟨new1 ++ new2, by rw [hout2, hout1, List.append_assoc], ?_, ?_⟩
        · rw [List.pairwise_append]
          refine ⟨hpw1, hpw2, ?_⟩
          intro m hm n hn
          obtain ⟨c, hc1, hc2, hmok⟩ := hprops1 m hm
          obtain ⟨r', c', hr'1, hr'2, hc'2, hmok'⟩ := hprops2 n hn
          have hne : r ≠ r' := by
            have := (List.pairwise_cons.mp hpair).1 r' hr'1
            omega
          refine IDne_of_moves hmok.1 hmok'.1 (hbnd r c hr hc2) (hbnd r' c' hr'2 hc'2)
            (Or.inl ?_)
          intro hcon
          apply hne
          have h2 := congrArg Prod.fst hcon
          dsimp only at h2
          exact_mod_cast h2
        · intro m hm
          rcases List.mem_append.mp hm with hm1 | hm2
          · obtain ⟨c, hc1, hc2, hmok⟩ := hprops1 m hm1
            exact ⟨r, c, List.mem_cons_self _ _, hr, hc2, hmok⟩
          · obtain ⟨r', c', hr'1, hr'2, hc'2, hmok'⟩ := hprops2 m hm2
            exact ⟨r', c', List.mem_cons_of_mem _ hr'1, hr'2, hc'2, hmok'⟩

/-- Every successful `getAllPossibleMoves` run yields identifier-distinct
moves, each generated at an in-range square of the scanned board with
matching snapshots. -/
theorem allMovesCore_spec {b : Board} {w : Bool} {out : List Move}
    (hb : dims8 b = true) (h : allMovesCore b w = some out) :
    List.Pairwise (fun m n => m.moveID ≠ n.moveID) out ∧
    ∀ m ∈ out, ∃ r c : Nat, r < 8 ∧ c < 8 ∧ SqMoveOK b w (r : Int) (c : Int) m := by
  unfold allMovesCore at h
  obtain ⟨new, hout, hpw, hprops⟩ :=
    scanBoard_appends hb (List.range b.length) [] out
      (by intro r hr
          rw [List.mem_range] at hr
          rw [dims8_len hb] at hr
          exact hr)
      (List.pairwise_lt_range _) h
  rw [hout]
  simp only [List.nil_append]
  exact ⟨hpw, fun m hm =>
    (hprops m hm).imp fun r ⟨c, _, h2, h3, h4⟩ => ⟨c, h2, h3, h4⟩⟩

/-! ### Making and undoing moves -/

theorem pyNorm_cast_nonneg {i : Int} (h0 : 0 ≤ i) : ((pyNorm i : Nat) : Int) = i := by
  unfold pyNorm
  split_ifs
  omega

/-- Structure of a successful `makeMove`: the coordinate windows hold, the
shape is preserved, the bookkeeping fields are updated as in the source,
and the new board differs from the old exactly at the (normalized) start
and end squares. -/
theorem makeMove_some_spec {gs : GameState} {m : Move} {gs1 : GameState}
    (hb : dims8 gs.board = true) (h : makeMove gs m = some gs1) :
    (-8 ≤ m.startRow ∧ m.startRow < 8 ∧ -8 ≤ m.startCol ∧ m.startCol < 8 ∧
     -8 ≤ m.endRow ∧ m.endRow < 8 ∧ -8 ≤ m.endCol ∧ m.endCol < 8) ∧
    dims8 gs1.board = true ∧
    gs1.whiteToMove = !gs.whiteToMove ∧
    gs1.moveLog = gs.moveLog ++ [m] ∧
    gs1.whiteKingLocation =
      (if m.pieceMoved = wKing then (m.endRow, m.endCol)
       else gs.whiteKingLocation) ∧
    gs1.blackKingLocation =
      (if m.pieceMoved = bKing then (m.endRow, m.endCol)
       else gs.blackKingLocation) ∧
    gs1.checkMate = gs.checkMate ∧ gs1.staleMate = gs.staleMate ∧
    ∀ r c : Nat, r < 8 → c < 8 →
      bget gs1.board r c =
        (if r = pyNorm m.endRow ∧ c = pyNorm m.endCol then some m.pieceMoved
         else if r = pyNorm m.startRow ∧ c = pyNorm m.startCol then some Cell.empty
         else bget gs.board r c) := by
  unfold makeMove at h
  rcases h1 : pySet gs.board m.startRow m.startCol Cell.empty with _ | b1
  · rw [h1] at h; cases h
  · rw [h1] at h
    dsimp only at h
    rcases h2 : pySet b1 m.endRow m.endCol m.pieceMoved with _ | b2
    · rw [h2] at h; cases h
    · rw [h2] at h
      cases h
      have hw1 : -8 ≤ m.startRow ∧ m.startRow < 8 ∧ -8 ≤ m.startCol ∧ m.startCol < 8 :=
        (pySet_isSome hb).mp (by rw [h1]; rfl)
      obtain ⟨rowS, hrowS, hsetS⟩ :=
        @pySet_eq _ hb _ _ Cell.empty hw1.1 hw1.2.1 hw1.2.2.1 hw1.2.2.2
      rw [hsetS] at h1
      have hb1 : dims8 b1 = true := by
        cases h1
        exact dims8_set hb hrowS
      have hw2 : -8 ≤ m.endRow ∧ m.endRow < 8 ∧ -8 ≤ m.endCol ∧ m.endCol < 8 :=
        (pySet_isSome hb1).mp (by rw [h2]; rfl)
      obtain ⟨rowE, hrowE, hsetE⟩ :=
        @pySet_eq _ hb1 _ _ m.pieceMoved hw2.1 hw2.2.1 hw2.2.2.1 hw2.2.2.2
      rw [hsetE] at h2
      have hb2 : dims8 b2 = true := by
        cases h2
        exact dims8_set hb1 hrowE
      refine ⟨⟨hw1.1, hw1.2.1, hw1.2.2.1, hw1.2.2.2,
        hw2.1, hw2.2.1, hw2.2.2.1, hw2.2.2.2⟩, hb2, rfl, rfl, rfl, rfl, rfl, rfl, ?_⟩
      intro r c hr hc
      have e2 : bget b2 r c =
          if r = pyNorm m.endRow ∧ c = pyNorm m.endCol then some m.pieceMoved
          else bget b1 r c := by
        cases h2
        exact bget_set hb1 hrowE (pyNorm_lt hw2.2.2.1 hw2.2.2.2) hc
      have e1 : bget b1 r c =
          if r = pyNorm m.startRow ∧ c = pyNorm m.startCol then some Cell.empty
          else bget gs.board r c := by
        cases h1
        exact bget_set hb hrowS (pyNorm_lt hw1.2.2.1 hw1.2.2.2) hc
      rw [e2, e1]

/-- `makeMove` succeeds whenever the move's coordinates are inside the
index window. -/
theorem makeMove_isSome {gs : GameState} {m : Move}
    (hb : dims8 gs.board = true)
    (hw : -8 ≤ m.startRow ∧ m.startRow < 8 ∧ -8 ≤ m.startCol ∧ m.startCol < 8 ∧
          -8 ≤ m.endRow ∧ m.endRow < 8 ∧ -8 ≤ m.endCol ∧ m.endCol < 8) :
    (makeMove gs m).isSome = true := by
  obtain ⟨rowS, hrowS, hsetS⟩ :=
    @pySet_eq _ hb _ _ Cell.empty hw.1 hw.2.1 hw.2.2.1 hw.2.2.2.1
  have hb1 := @dims8_set _ _ _ (pyNorm m.startCol) Cell.empty hb hrowS
  obtain ⟨rowE, hrowE, hsetE⟩ :=
    @pySet_eq _ hb1 _ _ m.pieceMoved hw.2.2.2.2.1 hw.2.2.2.2.2.1
      hw.2.2.2.2.2.2.1 hw.2.2.2.2.2.2.2
  unfold makeMove
  rw [hsetS]
  dsimp only
  rw [hsetE]
  rfl

/-- The round trip: `makeMove` then `undoMove` restores the state exactly,
provided the move's snapshots were taken from the current board and, when
a king moves, the king-location field agrees with the move's start
square. -/
theorem make_undo {gs : GameState} {m : Move} {gs1 : GameState}
    (hb : dims8 gs.board = true)
    (hsr : 0 ≤ m.startRow) (hsr8 : m.startRow < 8)
    (hsc : 0 ≤ m.startCol) (hsc8 : m.startCol < 8)
    (hpm : pyGet gs.board m.startRow m.startCol = some m.pieceMoved)
    (hpc : pyGet gs.board m.endRow m.endCol = some m.pieceCaptured)
    (hwk : m.pieceMoved = wKing → gs.whiteKingLocation = (m.startRow, m.startCol))
    (hbk : m.pieceMoved = bKing → gs.blackKingLocation = (m.startRow, m.startCol))
    (hmk : makeMove gs m = some gs1) :
    undoMove gs1 = some gs := by
  obtain ⟨hw, hb1, hwm, hlog, hwkl, hbkl, hcm, hsm, hcells⟩ :=
    makeMove_some_spec hb hmk
  obtain ⟨rowS, hrowS, hsetS⟩ :=
    @pySet_eq gs1.board hb1 _ _ m.pieceMoved hw.1 hw.2.1 hw.2.2.1 hw.2.2.2.1
  have hb3 := @dims8_set _ _ _ (pyNorm m.startCol) m.pieceMoved hb1 hrowS
  set b3 := gs1.board.set (pyNorm m.startRow) (rowS.set (pyNorm m.startCol) m.pieceMoved) with hb3def
  obtain ⟨rowE, hrowE, hsetE⟩ :=
    @pySet_eq b3 hb3 _ _ m.pieceCaptured hw.2.2.2.2.1 hw.2.2.2.2.2.1
      hw.2.2.2.2.2.2.1 hw.2.2.2.2.2.2.2
  set b4 := b3.set (pyNorm m.endRow) (rowE.set (pyNorm m.endCol) m.pieceCaptured) with hb4def
  have hb4 := @dims8_set _ _ _ (pyNorm m.endCol) m.pieceCaptured hb3 hrowE
  have hboard : b4 = gs.board := by
    apply board_ext hb4 hb
    intro r c hr hc
    have e4 : bget b4 r c =
        if r = pyNorm m.endRow ∧ c = pyNorm m.endCol then some m.pieceCaptured
        else bget b3 r c :=
      bget_set hb3 hrowE (pyNorm_lt hw.2.2.2.2.2.2.1 hw.2.2.2.2.2.2.2) hc
    have e3 : bget b3 r c =
        if r = pyNorm m.startRow ∧ c = pyNorm m.startCol then some m.pieceMoved
        else bget gs1.board r c :=
      bget_set hb1 hrowS (pyNorm_lt hw.2.2.1 hw.2.2.2.1) hc
    rw [e4, e3, hcells r c hr hc]
    have hpm' : bget gs.board (pyNorm m.startRow) (pyNorm m.startCol) = some m.pieceMoved := by
      rw [← pyGet_eq_bget hb hw.1 hw.2.1 hw.2.2.1 hw.2.2.2.1]
      exact hpm
    have hpc' : bget gs.board (pyNorm m.endRow) (pyNorm m.endCol) = some m.pieceCaptured := by
      rw [← pyGet_eq_bget hb hw.2.2.2.2.1 hw.2.2.2.2.2.1 hw.2.2.2.2.2.2.1 hw.2.2.2.2.2.2.2]
      exact hpc
    by_cases hce : r = pyNorm m.endRow ∧ c = pyNorm m.endCol
    · rw [if_pos hce, hce.1, hce.2, hpc']
    · rw [if_neg hce]
      by_cases hcs : r = pyNorm m.startRow ∧ c = pyNorm m.startCol
      · rw [if_pos hcs, hcs.1, hcs.2, hpm']
      · rw [if_neg hcs, if_neg hce, if_neg hcs]
  unfold undoMove
  rw [hlog, List.getLast?_concat]
  dsimp only
  rw [hsetS]
  dsimp only
  rw [hsetE]
  dsimp only
  have hwkl' : (if m.pieceMoved = wKing then (m.startRow, m.startCol)
      else gs1.whiteKingLocation) = gs.whiteKingLocation := by
    by_cases hk : m.pieceMoved = wKing
    · rw [if_pos hk]
      exact (hwk hk).symm
    · rw [if_neg hk, hwkl, if_neg hk]
  have hbkl' : (if m.pieceMoved = bKing then (m.startRow, m.startCol)
      else gs1.blackKingLocation) = gs.blackKingLocation := by
    by_cases hk : m.pieceMoved = bKing
    · rw [if_pos hk]
      exact (hbk hk).symm
    · rw [if_neg hk, hbkl, if_neg hk]
  rw [hboard, hwm, hwkl', hbkl', hcm, hsm, List.dropLast_concat, Bool.not_not]

/-! ### The legality filter loop -/

/-- `list.remove(x)` deletes exactly the first element equal to `x`. -/
theorem removeFirst_eq {p rest : List Move} {m : Move}
    (hp : ∀ x ∈ p, moveBeq x m = false) :
    removeFirst (p ++ m :: rest) m = some (p ++ rest) := by
  induction p with
  | nil =>
    rw [List.nil_append, List.nil_append, removeFirst, if_pos (moveBeq_self m)]
  | cons x p ih =>
    rw [List.cons_append, List.cons_append, removeFirst,
      if_neg (by rw [hp x (List.mem_cons_self _ _)]; exact Bool.false_ne_true),
      ih (fun y hy => hp y (List.mem_cons_of_mem _ hy))]

theorem keepB_iff {gs : GameState} {m : Move} :
    keepB gs m = true ↔ exposed gs m = some false := by
  unfold keepB
  exact beq_iff_eq

theorem pyNorm_of_nonneg {i : Int} (h : 0 ≤ i) : pyNorm i = i.toNat := by
  unfold pyNorm
  rw [if_pos h]

/-- The king-location fields agree with a king's actual square. -/
theorem kingConsist {gs : GameState} {m : Move}
    (hb : dims8 gs.board = true) (hk : kingLocsOK gs = true)
    (hsr : 0 ≤ m.startRow) (hsr8 : m.startRow < 8)
    (hsc : 0 ≤ m.startCol) (hsc8 : m.startCol < 8)
    (hpm : pyGet gs.board m.startRow m.startCol = some m.pieceMoved) :
    (m.pieceMoved = wKing → gs.whiteKingLocation = (m.startRow, m.startCol)) ∧
    (m.pieceMoved = bKing → gs.blackKingLocation = (m.startRow, m.startCol)) := by
  obtain ⟨hbnd, hcells⟩ := (kingLocsOK_iff hb).mp hk
  have hrt : ((m.startRow.toNat : Nat) : Int) = m.startRow := Int.toNat_of_nonneg hsr
  have hct : ((m.startCol.toNat : Nat) : Int) = m.startCol := Int.toNat_of_nonneg hsc
  have hget : bget gs.board m.startRow.toNat m.startCol.toNat = some m.pieceMoved := by
    have heq := @pyGet_eq_bget _ hb m.startRow m.startCol
      (by omega) hsr8 (by omega) hsc8
    rw [pyNorm_of_nonneg hsr, pyNorm_of_nonneg hsc] at heq
    rw [← heq]
    exact hpm
  have hij := hcells m.startRow.toNat m.startCol.toNat (by omega) (by omega)
  constructor
  · intro hkg
    rw [hkg] at hget
    have := hij.1.mp hget
    rw [hrt, hct] at this
    exact this.symm
  · intro hkg
    rw [hkg] at hget
    have := hij.2.mp hget
    rw [hrt, hct] at this
    exact this.symm

theorem CandOK_of_SqMoveOK {gs : GameState} {m : Move} {r c : Int}
    (hr : 0 ≤ r) (hr8 : r < 8) (hc : 0 ≤ c) (hc8 : c < 8)
    (h : SqMoveOK gs.board gs.whiteToMove r c m) : CandOK gs m := by
  obtain ⟨⟨h1, h2, h3, h4, h5, h6, h7, h8, h9⟩, _⟩ := h
  exact ⟨by omega, by omega, by omega, by omega, h3, h4, h5, h6, h7, h8⟩

/-- One simulation step of the `getValidMoves` loop computes `exposed`
and returns to the original state. -/
theorem simulate_step {gs : GameState} {m : Move} {gs1 : GameState}
    (hb : dims8 gs.board = true) (hk : kingLocsOK gs = true)
    (hok : CandOK gs m)
    (hmk : makeMove gs m = some gs1) :
    ∀ {chk : Bool} {gs3 : GameState},
      inCheck { gs1 with whiteToMove := !gs1.whiteToMove } = some (chk, gs3) →
      exposed gs m = some chk ∧
      undoMove { gs3 with whiteToMove := !gs3.whiteToMove } = some gs := by
  intro chk gs3 hchk
  obtain ⟨h1, h2, h3, h4, h5, h6, h7, h8, h9, h10⟩ := hok
  have hcons := kingConsist hb hk h1 h2 h3 h4 h9
  have hrest := inCheck_some hchk
  constructor
  · unfold exposed
    rw [hmk]
    dsimp only
    rw [hchk]
  · have : ({ gs3 with whiteToMove := !gs3.whiteToMove } : GameState) = gs1 := by
      rw [hrest]
      show ({ gs1 with whiteToMove := !(!gs1.whiteToMove) } : GameState) = gs1
      rw [Bool.not_not]
    rw [this]
    exact make_undo hb h1 h2 h3 h4 h9 h10 hcons.1 hcons.2 hmk

/-- The `getValidMoves` loop, processing indices `n-1, ..., 0` of the
candidate list while the later indices have already been decided, returns
the keep-filtered candidates and restores the state. -/
theorem filterLoop_spec {gs : GameState} {moves : List Move}
    (hb : dims8 gs.board = true) (hk : kingLocsOK gs = true)
    (hok : ∀ m ∈ moves, CandOK gs m)
    (hpw : moves.Pairwise (fun m n => m.moveID ≠ n.moveID)) :
    ∀ (n : Nat), n ≤ moves.length →
      ∀ out gsOut,
        filterLoop gs (moves.take n ++ (moves.drop n).filter (keepB gs)) n =
          some (out, gsOut) →
        out = moves.filter (keepB gs) ∧ gsOut = gs ∧
        ∀ m ∈ moves.take n, ∃ br, exposed gs m = some br
  | 0, hn, out, gsOut, h => by
    rw [filterLoop] at h
    rw [List.take_zero, List.drop_zero, List.nil_append] at h
    cases h
    exact ⟨rfl, rfl, by simp⟩
  | Nat.succ n, hn, out, gsOut, h => by
    have hlt : n < moves.length := hn
    rcases hmn : moves.get? n with _ | mn
    · rw [List.get?_eq_none] at hmn
      omega
    · have htk : moves.take (n + 1) = moves.take n ++ [mn] := by
        rw [List.take_succ]
        rw [List.get?_eq_getElem?] at hmn
        rw [hmn]
        rfl
      have hdr : moves.drop n = mn :: moves.drop (n + 1) := by
        rw [List.drop_eq_getElem_cons hlt]
        congr 1
        rw [List.get?_eq_getElem?, List.getElem?_eq_getElem hlt] at hmn
        exact (Option.some.injEq _ _).mp hmn
      have hmem : mn ∈ moves := List.get?_mem hmn
      have hcross : ∀ x ∈ moves.take n, x.moveID ≠ mn.moveID := by
        have hsplit := hpw
        rw [← List.take_append_drop n moves, List.pairwise_append] at hsplit
        intro x hx
        exact hsplit.2.2 x hx mn (by rw [hdr]; exact List.mem_cons_self _ _)
      have hget : (moves.take (n + 1) ++
          (moves.drop (n + 1)).filter (keepB gs)).get? n = some mn := by
        rw [List.get?_append
            (by rw [List.length_take]; omega),
          List.get?_take (by omega)]
        exact hmn
      rw [filterLoop] at h
      rw [hget] at h
      dsimp only at h
      rcases hmk : makeMove gs mn with _ | gs1
      · rw [hmk] at h; cases h
      · rw [hmk] at h
        dsimp only at h
        rcases hchk : inCheck { gs1 with whiteToMove := !gs1.whiteToMove }
          with _ | ⟨chk, gs3⟩
        · rw [hchk] at h; cases h
        · rw [hchk] at h
          dsimp only at h
          obtain ⟨hexp, hundo⟩ := simulate_step hb hk (hok mn hmem) hmk hchk
          have hbeqs : ∀ x ∈ moves.take n, moveBeq x mn = false := by
            intro x hx
            unfold moveBeq
            exact beq_eq_false_iff_ne.mpr (hcross x hx)
          rcases hchkval : chk with _ | _
          · -- king not attacked: the candidate is kept
            rw [hchkval] at h
            rw [if_neg (by simp)] at h
            dsimp only at h
            rw [hundo] at h
            dsimp only at h
            have hkeep : keepB gs mn = true := by
              rw [keepB_iff]
              rw [hexp, hchkval]
            have hcur : moves.take (n + 1) ++ (moves.drop (n + 1)).filter (keepB gs) =
                moves.take n ++ (moves.drop n).filter (keepB gs) := by
              rw [htk, hdr, List.filter_cons, if_pos hkeep]
              simp
            rw [hcur] at h
            obtain ⟨h1, h2, h3⟩ := filterLoop_spec hb hk hok hpw n (by omega) out gsOut h
            refine ⟨h1, h2, ?_⟩
            intro m hm
            rw [htk] at hm
            rcases List.mem_append.mp hm with hm1 | hm2
            · exact h3 m hm1
            · rcases List.mem_singleton.mp hm2 with rfl
              exact ⟨chk, by rw [hchkval] at hexp ⊢; exact hexp⟩
          · -- the king is attacked: the candidate is removed
            rw [hchkval] at h
            rw [if_pos rfl] at h
            have hrem : removeFirst (moves.take (n + 1) ++
                (moves.drop (n + 1)).filter (keepB gs)) mn =
                some (moves.take n ++ (moves.drop (n + 1)).filter (keepB gs)) := by
              rw [htk, List.append_assoc, List.singleton_append]
              exact removeFirst_eq hbeqs
            rw [hrem] at h
            dsimp only at h
            rw [hundo] at h
            dsimp only at h
            have hkeep : keepB gs mn = false := by
              rcases hkb : keepB gs mn with _ | _
              · rfl
              · rw [keepB_iff] at hkb
                rw [hexp, hchkval] at hkb
                cases hkb
            have hcur : moves.take n ++ (moves.drop (n + 1)).filter (keepB gs) =
                moves.take n ++ (moves.drop n).filter (keepB gs) := by
              rw [hdr, List.filter_cons, if_neg (by rw [hkeep]; exact Bool.false_ne_true)]
            rw [hcur] at h
            obtain ⟨h1, h2, h3⟩ := filterLoop_spec hb hk hok hpw n (by omega) out gsOut h
            refine ⟨h1, h2, ?_⟩
            intro m hm
            rw [htk] at hm
            rcases List.mem_append.mp hm with hm1 | hm2
            · exact h3 m hm1
            · rcases List.mem_singleton.mp hm2 with rfl
              exact ⟨chk, by rw [hchkval] at hexp ⊢; exact hexp⟩

/-- Full characterization of a successful `getValidMoves` call on a state
satisfying the documented invariants: the returned list is the
keep-filtered pseudo-legal candidate list, every candidate was actually
simulated, and the returned state is the input state with only the
`checkMate`/`staleMate` flags written. -/
theorem getValidMoves_spec {gs : GameState} {ms : List Move} {gs' : GameState}
    (hb : dims8 gs.board = true) (hk : kingLocsOK gs = true)
    (h : getValidMoves gs = some (ms, gs')) :
    ∃ cand, getAllPossibleMoves gs = some cand ∧
      ms = cand.filter (keepB gs) ∧
      (∀ m ∈ cand, CandOK gs m) ∧
      cand.Pairwise (fun m n => m.moveID ≠ n.moveID) ∧
      (∀ m ∈ cand, ∃ br, exposed gs m = some br) ∧
      (ms = [] → ∃ chk, inCheck gs = some (chk, gs) ∧
        gs' = (if chk then { gs with checkMate := true }
               else { gs with staleMate := true })) ∧
      (ms ≠ [] → gs' = { gs with checkMate := false, staleMate := false }) := by
  unfold getValidMoves at h
  rcases hcand : getAllPossibleMoves gs with _ | cand
  · rw [hcand] at h; cases h
  · rw [hcand] at h
    dsimp only at h
    obtain ⟨hpw, hsq⟩ := allMovesCore_spec hb hcand
    have hok : ∀ m ∈ cand, CandOK gs m := by
      intro m hm
      obtain ⟨r, c, hr, hc, hsq'⟩ := hsq m hm
      exact CandOK_of_SqMoveOK (Int.natCast_nonneg r) (by exact_mod_cast hr)
        (Int.natCast_nonneg c) (by exact_mod_cast hc) hsq'
    rcases hloop : filterLoop gs cand cand.length with _ | ⟨moves2, gsL⟩
    · rw [hloop] at h; cases h
    · rw [hloop] at h
      dsimp only at h
      have harg : cand.take cand.length ++
          (cand.drop cand.length).filter (keepB gs) = cand := by simp
      have hloop2 : filterLoop gs (cand.take cand.length ++
          (cand.drop cand.length).filter (keepB gs)) cand.length =
          some (moves2, gsL) := by
        rw [harg]
        exact hloop
      obtain ⟨hflt, hgsL, hsucc⟩ :=
        filterLoop_spec hb hk hok hpw cand.length (Nat.le_refl _) moves2 gsL hloop2
      have hsucc' : ∀ m ∈ cand, ∃ br, exposed gs m = some br := by
        intro m hm
        exact hsucc m (by rw [List.take_length]; exact hm)
      rcases hlen : moves2.length with _ | k
      · rw [hlen] at h
        rw [if_pos rfl] at h
        rcases hchk : inCheck gsL with _ | ⟨chk, gsC⟩
        · rw [hchk] at h; cases h
        · rw [hchk] at h
          dsimp only at h
          have hgsC : gsC = gs := by rw [inCheck_some hchk, hgsL]
          have hchk2 : inCheck gs = some (chk, gs) := by
            rw [← hgsL, hchk, hgsC, hgsL]
          have hms2 : moves2 = [] := List.length_eq_zero.mp hlen
          have hmsflt : ([] : List Move) = cand.filter (keepB gs) := hms2 ▸ hflt
          rcases hchkval : chk with _ | _
          · rw [hchkval] at h
            rw [if_neg (by simp)] at h
            cases h
            rw [hgsC]
            refine ⟨cand, rfl, hms2 ▸ hmsflt, hok, hpw, hsucc', fun _ => ?_, ?_⟩
            · refine ⟨false, by rw [← hchkval]; exact hchk2, ?_⟩
              rw [if_neg (by simp)]
            · intro hne
              exact absurd hms2 hne
          · rw [hchkval] at h
            rw [if_pos rfl] at h
            cases h
            rw [hgsC]
            refine ⟨cand, rfl, hms2 ▸ hmsflt, hok, hpw, hsucc', fun _ => ?_, ?_⟩
            · refine ⟨true, by rw [← hchkval]; exact hchk2, ?_⟩
              rw [if_pos rfl]
            · intro hne
              exact absurd hms2 hne
      · rw [hlen] at h
        rw [if_neg (by omega)] at h
        rw [hgsL] at h
        cases h
        refine ⟨cand, rfl, hflt, hok, hpw, hsucc', fun hemp => ?_, fun _ => rfl⟩
        rw [hemp] at hlen
        cases hlen

/-! ### Shape preservation along engine operations -/

theorem undoMove_dims8 {gs gs' : GameState} (hb : dims8 gs.board = true)
    (h : undoMove gs = some gs') : dims8 gs'.board = true := by
  unfold undoMove at h
  rcases hlast : gs.moveLog.getLast? with _ | mv
  · rw [hlast] at h
    cases h
    exact hb
  · rw [hlast] at h
    dsimp only at h
    rcases h1 : pySet gs.board mv.startRow mv.startCol mv.pieceMoved with _ | b1
    · rw [h1] at h; cases h
    · rw [h1] at h
      dsimp only at h
      have hw1 := (pySet_isSome hb).mp (by rw [h1]; rfl)
      obtain ⟨rowS, hrowS, hsetS⟩ :=
        @pySet_eq _ hb _ _ mv.pieceMoved hw1.1 hw1.2.1 hw1.2.2.1 hw1.2.2.2
      rw [hsetS] at h1
      have hb1 : dims8 b1 = true := by
        cases h1
        exact dims8_set hb hrowS
      rcases h2 : pySet b1 mv.endRow mv.endCol mv.pieceCaptured with _ | b2
      · rw [h2] at h; cases h
      · rw [h2] at h
        cases h
        have hw2 := (pySet_isSome hb1).mp (by rw [h2]; rfl)
        obtain ⟨rowE, hrowE, hsetE⟩ :=
          @pySet_eq _ hb1 _ _ mv.pieceCaptured hw2.1 hw2.2.1 hw2.2.2.1 hw2.2.2.2
        rw [hsetE] at h2
        cases h2
        exact dims8_set hb1 hrowE

theorem filterLoop_dims8 :
    ∀ (n : Nat) (cur : List Move) (gsIn : GameState) {out : List Move}
      {gsOut : GameState},
      dims8 gsIn.board = true → filterLoop gsIn cur n = some (out, gsOut) →
      dims8 gsOut.board = true
  | 0, cur, gsIn, out, gsOut, hb, h => by
    rw [filterLoop] at h
    cases h
    exact hb
  | Nat.succ n, cur, gsIn, out, gsOut, hb, h => by
    rw [filterLoop] at h
    rcases hget : cur.get? n with _ | m
    · rw [hget] at h; cases h
    · rw [hget] at h
      dsimp only at h
      rcases hmk : makeMove gsIn m with _ | gs1
      · rw [hmk] at h; cases h
      · rw [hmk] at h
        dsimp only at h
        rcases hchk : inCheck { gs1 with whiteToMove := !gs1.whiteToMove }
          with _ | ⟨chk, gs3⟩
        · rw [hchk] at h; cases h
        · rw [hchk] at h
          dsimp only at h
          rcases hrm : (if chk then removeFirst cur m else some cur) with _ | cur'
          · rw [hrm] at h; cases h
          · rw [hrm] at h
            dsimp only at h
            rcases hu : undoMove { gs3 with whiteToMove := !gs3.whiteToMove }
              with _ | gs5
            · rw [hu] at h; cases h
            · rw [hu] at h
              have hb1 : dims8 gs1.board = true := (makeMove_some_spec hb hmk).2.1
              have hb3 : dims8 gs3.board = true := by
                rw [inCheck_some hchk]
                exact hb1
              have hb5 : dims8 gs5.board = true :=
                @undoMove_dims8 { gs3 with whiteToMove := !gs3.whiteToMove } _
                  hb3 hu
              exact filterLoop_dims8 n cur' gs5 hb5 h

theorem getValidMoves_dims8 {gs : GameState} {ms : List Move} {gs' : GameState}
    (hb : dims8 gs.board = true) (h : getValidMoves gs = some (ms, gs')) :
    dims8 gs'.board = true := by
  unfold getValidMoves at h
  rcases hcand : getAllPossibleMoves gs with _ | cand
  · rw [hcand] at h; cases h
  · rw [hcand] at h
    dsimp only at h
    rcases hloop : filterLoop gs cand cand.length with _ | ⟨moves2, gsL⟩
    · rw [hloop] at h; cases h
    · rw [hloop] at h
      dsimp only at h
      have hbL : dims8 gsL.board = true := filterLoop_dims8 _ _ _ hb hloop
      split at h
      · rcases hchk : inCheck gsL with _ | ⟨chk, gsC⟩
        · rw [hchk] at h; cases h
        · rw [hchk] at h
          dsimp only at h
          have hbC : dims8 gsC.board = true := by
            rw [inCheck_some hchk]
            exact hbL
          split at h <;> (cases h; exact hbC)
      · cases h
        exact hbL

/-- Every reachable state has an 8x8 board. -/
theorem reachable_dims8 {gs : GameState} (h : Reachable gs) :
    dims8 gs.board = true := by
  induction h with
  | init => decide
  | step hr hv hm hmk ih =>
    exact (makeMove_some_spec (getValidMoves_dims8 ih hv) hmk).2.1

/-- A non-king-capturing move with board-consistent snapshots preserves
the king-location invariant. -/
theorem kingLocsOK_makeMove {gs : GameState} {m : Move} {gs1 : GameState}
    (hb : dims8 gs.board = true) (hk : kingLocsOK gs = true)
    (hsr : 0 ≤ m.startRow) (hsr8 : m.startRow < 8)
    (hsc : 0 ≤ m.startCol) (hsc8 : m.startCol < 8)
    (her : -1 ≤ m.endRow) (her8 : m.endRow < 8)
    (hec : 0 ≤ m.endCol) (hec8 : m.endCol < 8)
    (hker : (m.pieceMoved = wKing ∨ m.pieceMoved = bKing) → 0 ≤ m.endRow)
    (hpm : pyGet gs.board m.startRow m.startCol = some m.pieceMoved)
    (hpc : pyGet gs.board m.endRow m.endCol = some m.pieceCaptured)
    (hnc1 : m.pieceCaptured ≠ wKing) (hnc2 : m.pieceCaptured ≠ bKing)
    (hmk : makeMove gs m = some gs1) :
    kingLocsOK gs1 = true := by
  obtain ⟨hw, hb1, hwm, hlog, hwkl, hbkl, hcm, hsm, hcells⟩ :=
    makeMove_some_spec hb hmk
  obtain ⟨hbnd, hold⟩ := (kingLocsOK_iff hb).mp hk
  have hnsr : ((pyNorm m.startRow : Nat) : Int) = m.startRow := pyNorm_cast_nonneg hsr
  have hnsc : ((pyNorm m.startCol : Nat) : Int) = m.startCol := pyNorm_cast_nonneg hsc
  have hnec : ((pyNorm m.endCol : Nat) : Int) = m.endCol := pyNorm_cast_nonneg hec
  have hsrlt := pyNorm_lt (by omega : (-8 : Int) ≤ m.startRow) hsr8
  have hsclt := pyNorm_lt (by omega : (-8 : Int) ≤ m.startCol) hsc8
  have herlt := pyNorm_lt (by omega : (-8 : Int) ≤ m.endRow) her8
  have heclt := pyNorm_lt (by omega : (-8 : Int) ≤ m.endCol) hec8
  have hpmn : bget gs.board (pyNorm m.startRow) (pyNorm m.startCol) = some m.pieceMoved := by
    rw [← pyGet_eq_bget hb (by omega) hsr8 (by omega) hsc8]
    exact hpm
  have hpcn : bget gs.board (pyNorm m.endRow) (pyNorm m.endCol) = some m.pieceCaptured := by
    rw [← pyGet_eq_bget hb (by omega) her8 (by omega) hec8]
    exact hpc
  -- the end square never held a king, the start square held `pieceMoved`
  have hendW : ¬(((pyNorm m.endRow : Nat) : Int), ((pyNorm m.endCol : Nat) : Int)) =
      gs.whiteKingLocation := by
    intro hcon
    have := ((hold _ _ herlt heclt).1.mpr hcon)
    rw [hpcn] at this
    exact hnc1 ((Option.some.injEq _ _).mp this)
  have hendB : ¬(((pyNorm m.endRow : Nat) : Int), ((pyNorm m.endCol : Nat) : Int)) =
      gs.blackKingLocation := by
    intro hcon
    have := ((hold _ _ herlt heclt).2.mpr hcon)
    rw [hpcn] at this
    exact hnc2 ((Option.some.injEq _ _).mp this)
  rw [kingLocsOK_iff hb1]
  refine ⟨?_, ?_⟩
  · rw [hwkl, hbkl]
    by_cases hkw : m.pieceMoved = wKing
    · rw [if_pos hkw, if_neg (by rw [hkw]; decide)]
      have h0 := hker (Or.inl hkw)
      exact ⟨h0, her8, hec, hec8, hbnd.2.2.2.2.1, hbnd.2.2.2.2.2.1,
        hbnd.2.2.2.2.2.2.1, hbnd.2.2.2.2.2.2.2⟩
    · rw [if_neg hkw]
      by_cases hkb : m.pieceMoved = bKing
      · rw [if_pos hkb]
        have h0 := hker (Or.inr hkb)
        exact ⟨hbnd.1, hbnd.2.1, hbnd.2.2.1, hbnd.2.2.2.1, h0, her8, hec, hec8⟩
      · rw [if_neg hkb]
        exact hbnd
  · intro r c hr hc
    have hnew := hcells r c hr hc
    have holdrc := hold r c hr hc
    by_cases hce : r = pyNorm m.endRow ∧ c = pyNorm m.endCol
    · -- the end square now holds the moved piece
      rw [hnew, if_pos hce, hwkl, hbkl]
      obtain ⟨rfl, rfl⟩ := hce
      constructor
      · constructor
        · intro hkv
          have hkw := (Option.some.injEq _ _).mp hkv
          rw [if_pos hkw]
          have h0 := hker (Or.inl hkw)
          rw [Prod.ext_iff]
          constructor
          · show ((pyNorm m.endRow : Nat) : Int) = m.endRow
            exact pyNorm_cast_nonneg h0
          · exact hnec
        · intro hcon
          by_cases hkw : m.pieceMoved = wKing
          · rw [hkw]
          · rw [if_neg hkw] at hcon
            exact absurd hcon hendW
      · constructor
        · intro hkv
          have hkb := (Option.some.injEq _ _).mp hkv
          rw [if_pos hkb]
          have h0 := hker (Or.inr hkb)
          rw [Prod.ext_iff]
          constructor
          · show ((pyNorm m.endRow : Nat) : Int) = m.endRow
            exact pyNorm_cast_nonneg h0
          · exact hnec
        · intro hcon
          by_cases hkb : m.pieceMoved = bKing
          · rw [hkb]
          · rw [if_neg hkb] at hcon
            exact absurd hcon hendB
    · rw [hnew, if_neg hce]
      by_cases hcs : r = pyNorm m.startRow ∧ c = pyNorm m.startCol
      · -- the start square is now empty
        rw [if_pos hcs, hwkl, hbkl]
        obtain ⟨rfl, rfl⟩ := hcs
        constructor
        · constructor
          · intro hkv
            exact absurd ((Option.some.injEq _ _).mp hkv) (by decide)
          · intro hcon
            exfalso
            by_cases hkw : m.pieceMoved = wKing
            · rw [if_pos hkw] at hcon
              apply hce
              rw [Prod.ext_iff] at hcon
              constructor
              · have h0 := hker (Or.inl hkw)
                have h1 : ((pyNorm m.startRow : Nat) : Int) = m.endRow := hcon.1
                have h2 : ((pyNorm m.endRow : Nat) : Int) = m.endRow := pyNorm_cast_nonneg h0
                omega
              · have h1 : ((pyNorm m.startCol : Nat) : Int) = m.endCol := hcon.2
                omega
            · rw [if_neg hkw] at hcon
              have hkn := (holdrc.1.mpr hcon)
              rw [hpmn] at hkn
              exact hkw ((Option.some.injEq _ _).mp hkn)
        · constructor
          · intro hkv
            exact absurd ((Option.some.injEq _ _).mp hkv) (by decide)
          · intro hcon
            exfalso
            by_cases hkb : m.pieceMoved = bKing
            · rw [if_pos hkb] at hcon
              apply hce
              rw [Prod.ext_iff] at hcon
              constructor
              · have h0 := hker (Or.inr hkb)
                have h1 : ((pyNorm m.startRow : Nat) : Int) = m.endRow := hcon.1
                have h2 : ((pyNorm m.endRow : Nat) : Int) = m.endRow := pyNorm_cast_nonneg h0
                omega
              · have h1 : ((pyNorm m.startCol : Nat) : Int) = m.endCol := hcon.2
                omega
            · rw [if_neg hkb] at hcon
              have hkn := (holdrc.2.mpr hcon)
              rw [hpmn] at hkn
              exact hkb ((Option.some.injEq _ _).mp hkn)
      · -- untouched square
        rw [if_neg hcs, hwkl, hbkl]
        have hstartW : m.pieceMoved = wKing →
            (((pyNorm m.startRow : Nat) : Int), ((pyNorm m.startCol : Nat) : Int)) =
              gs.whiteKingLocation := by
          intro hkw
          apply (hold _ _ hsrlt hsclt).1.mp
          rw [hpmn, hkw]
        have hstartB : m.pieceMoved = bKing →
            (((pyNorm m.startRow : Nat) : Int), ((pyNorm m.startCol : Nat) : Int)) =
              gs.blackKingLocation := by
          intro hkb
          apply (hold _ _ hsrlt hsclt).2.mp
          rw [hpmn, hkb]
        constructor
        · constructor
          · intro hkv
            have hloc := holdrc.1.mp hkv
            by_cases hkw : m.pieceMoved = wKing
            · exfalso
              apply hcs
              have hrc := hloc.trans (hstartW hkw).symm
              rw [Prod.mk.injEq] at hrc
              exact ⟨by exact_mod_cast hrc.1, by exact_mod_cast hrc.2⟩
            · rw [if_neg hkw]
              exact hloc
          · intro hcon
            by_cases hkw : m.pieceMoved = wKing
            · exfalso
              rw [if_pos hkw] at hcon
              apply hce
              rw [Prod.ext_iff] at hcon
              have h0 := hker (Or.inl hkw)
              have h2 : ((pyNorm m.endRow : Nat) : Int) = m.endRow := pyNorm_cast_nonneg h0
              have h3 : ((r : Nat) : Int) = m.endRow := hcon.1
              have h4 : ((c : Nat) : Int) = m.endCol := hcon.2
              exact ⟨by omega, by omega⟩
            · rw [if_neg hkw] at hcon
              exact holdrc.1.mpr hcon
        · constructor
          · intro hkv
            have hloc := holdrc.2.mp hkv
            by_cases hkb : m.pieceMoved = bKing
            · exfalso
              apply hcs
              have hrc := hloc.trans (hstartB hkb).symm
              rw [Prod.mk.injEq] at hrc
              exact ⟨by exact_mod_cast hrc.1, by exact_mod_cast hrc.2⟩
            · rw [if_neg hkb]
              exact hloc
          · intro hcon
            by_cases hkb : m.pieceMoved = bKing
            · exfalso
              rw [if_pos hkb] at hcon
              apply hce
              rw [Prod.ext_iff] at hcon
              have h0 := hker (Or.inr hkb)
              have h2 : ((pyNorm m.endRow : Nat) : Int) = m.endRow := pyNorm_cast_nonneg h0
              have h3 : ((r : Nat) : Int) = m.endRow := hcon.1
              have h4 : ((c : Nat) : Int) = m.endCol := hcon.2
              exact ⟨by omega, by omega⟩
            · rw [if_neg hkb] at hcon
              exact holdrc.2.mpr hcon

/-- Two distinct step counts along one non-zero direction reach distinct
squares. -/
theorem rayPt_inj {row col : Int} {d : Int × Int} (hd : ¬(d.1 = 0 ∧ d.2 = 0))
    {i j : Nat}
    (h1 : row + d.1 * (i : Int) = row + d.1 * (j : Int))
    (h2 : col + d.2 * (i : Int) = col + d.2 * (j : Int)) : i = j := by
  rcases Decidable.em (d.1 = 0) with hz | hz
  · have hnz : d.2 ≠ 0 := fun h2' => hd ⟨hz, h2'⟩
    exact_mod_cast mul_left_cancel₀ hnz (add_left_cancel h2)
  · exact_mod_cast mul_left_cancel₀ hz (add_left_cancel h1)

/-- Membership characterisation of one direction scan: a ray square gets a
move appended if and only if every strictly earlier ray square is in
bounds and empty, the square itself is in bounds, and it is empty or
enemy-occupied.  This packages all four blocking rules: empty squares are
passed over and included, the first enemy square is included and stops the
scan, a friendly square is excluded and stops the scan, and the scan stops
at the board edge. -/
theorem scanDir_mem_iff {b : Board} {enemy : PColor} {row col : Int} {d : Int × Int}
    (hd : ¬(d.1 = 0 ∧ d.2 = 0)) :
    ∀ (n s : Nat) (moves out : List Move),
      scanDir b enemy row col d (List.range' s n) moves = some out →
      ∃ new, out = moves ++ new ∧
        (∀ m ∈ new, ∃ k : Nat, s ≤ k ∧ k < s + n ∧
          m.endRow = (rayPt row col d k).1 ∧ m.endCol = (rayPt row col d k).2) ∧
        ∀ i : Nat, s ≤ i → i < s + n →
          (hitsPt new (rayPt row col d i) ↔
            clearBefore b row col d s i ∧ ptInB (rayPt row col d i) ∧
              (ptEmpty b (rayPt row col d i) ∨ ptEnemy b enemy (rayPt row col d i)))
  | 0, s, moves, out, h => by
    rw [List.range', scanDir] at h
    cases h
    exact ⟨[], by simp, by simp, fun i hi1 hi2 => absurd hi2 (by omega)⟩
  | n + 1, s, moves, out, h => by
    rw [List.range', scanDir] at h
    split at h
    case isTrue hin =>
      obtain ⟨hr1, hr2, hc1, hc2⟩ := hin
      rcases hcell : pyGet b (row + d.1 * (s : Int)) (col + d.2 * (s : Int))
        with _ | endPiece
      · rw [hcell] at h; cases h
      · rw [hcell] at h
        dsimp only at h
        split at h
        case isTrue hemp =>
          rcases hmk : mkMove (row, col)
              (row + d.1 * (s : Int), col + d.2 * (s : Int)) b with _ | m
          · rw [hmk] at h; cases h
          · rw [hmk] at h
            dsimp only at h
            obtain ⟨new, hout, hends, hiff⟩ := scanDir_mem_iff hd n (s + 1) (moves ++ [m]) out h
            obtain ⟨hs1, hs2, hs3, hs4, hpm, hpc⟩ := mkMove_some hmk
            dsimp only at hs1 hs2 hs3 hs4 hpm hpc
            have hsOK : ptInB (rayPt row col d s) ∧ ptEmpty b (rayPt row col d s) := by
              refine ⟨⟨hr1, hr2, hc1, hc2⟩, ?_⟩
              show pyGet b (row + d.1 * (s : Int)) (col + d.2 * (s : Int)) = some Cell.empty
              rw [hcell, hemp]
            refine ⟨m :: new, by simpa using hout, ?_, ?_⟩
            · intro m' hm'
              rcases List.mem_cons.mp hm' with rfl | hm'
              · exact ⟨s, le_rfl, by omega, hs3, hs4⟩
              · obtain ⟨k, hk1, hk2, hk⟩ := hends m' hm'
                exact ⟨k, by omega, by omega, hk⟩
            · intro i hi1 hi2
              rcases eq_or_lt_of_le hi1 with rfl | hi1'
              · refine iff_of_true ⟨m, List.mem_cons_self _ _, hs3, hs4⟩
                  ⟨fun j hj1 hj2 => absurd hj2 (by omega), hsOK.1, Or.inl hsOK.2⟩
              · have hIH := hiff i (by omega) (by omega)
                have hmiss : ¬(m.endRow = (rayPt row col d i).1 ∧
                    m.endCol = (rayPt row col d i).2) := by
                  rintro ⟨he1, he2⟩
                  dsimp only [rayPt] at he1 he2
                  have h1 : row + d.1 * (s : Int) = row + d.1 * (i : Int) :=
                    hs3.symm.trans he1
                  have h2 : col + d.2 * (s : Int) = col + d.2 * (i : Int) :=
                    hs4.symm.trans he2
                  exact absurd (rayPt_inj hd h1 h2) (by omega)
                constructor
                · rintro ⟨m', hm', he⟩
                  rcases List.mem_cons.mp hm' with rfl | hm'
                  · exact absurd he hmiss
                  · obtain ⟨hclear, hrest⟩ := hIH.mp ⟨m', hm', he⟩
                    refine ⟨?_, hrest⟩
                    intro j hj1 hj2
                    rcases eq_or_lt_of_le hj1 with rfl | hj1'
                    · exact hsOK
                    · exact hclear j (by omega) hj2
                · rintro ⟨hclear, hrest⟩
                  obtain ⟨m', hm', he⟩ := hIH.mpr
                    ⟨fun j hj1 hj2 => hclear j (by omega) hj2, hrest⟩
                  exact ⟨m', List.mem_cons_of_mem _ hm', he⟩
        case isFalse hemp =>
          split at h
          case isTrue hene =>
            rcases hmk : mkMove (row, col)
                (row + d.1 * (s : Int), col + d.2 * (s : Int)) b with _ | m
            · rw [hmk] at h; cases h
            · rw [hmk] at h
              cases h
              obtain ⟨hs1, hs2, hs3, hs4, hpm, hpc⟩ := mkMove_some hmk
              dsimp only at hs1 hs2 hs3 hs4 hpm hpc
              refine ⟨[m], rfl, ?_, ?_⟩
              · intro m' hm'
                rcases List.mem_singleton.mp hm' with rfl
                exact ⟨s, le_rfl, by omega, hs3, hs4⟩
              · intro i hi1 hi2
                rcases eq_or_lt_of_le hi1 with rfl | hi1'
                · refine iff_of_true ⟨m, List.mem_singleton_self _, hs3, hs4⟩
                    ⟨fun j hj1 hj2 => absurd hj2 (by omega), ⟨hr1, hr2, hc1, hc2⟩, ?_⟩
                  refine Or.inr ⟨endPiece, hcell, hene⟩
                · refine iff_of_false ?_ ?_
                  · rintro ⟨m', hm', he⟩
                    rcases List.mem_singleton.mp hm' with rfl
                    obtain ⟨he1, he2⟩ := he
                    dsimp only [rayPt] at he1 he2
                    exact absurd (rayPt_inj hd (hs3.symm.trans he1)
                      (hs4.symm.trans he2)) (by omega)
                  · rintro ⟨hclear, _⟩
                    have := (hclear s le_rfl (by omega)).2
                    rw [ptEmpty, rayPt] at this
                    dsimp only at this
                    rw [hcell] at this
                    exact hemp ((Option.some.injEq _ _).mp this)
          case isFalse hene =>
            cases h
            refine ⟨[], by simp, by simp, ?_⟩
            intro i hi1 hi2
            refine iff_of_false ?_ ?_
            · rintro ⟨m', hm', _⟩
              exact absurd hm' (List.not_mem_nil m')
            · rcases eq_or_lt_of_le hi1 with rfl | hi1'
              · rintro ⟨_, _, hocc⟩
                rcases hocc with hocc | ⟨x, hx, hcolx⟩
                · rw [ptEmpty, rayPt] at hocc
                  dsimp only at hocc
                  rw [hcell] at hocc
                  exact hemp ((Option.some.injEq _ _).mp hocc)
                · rw [rayPt] at hx
                  dsimp only at hx
                  rw [hcell] at hx
                  cases (Option.some.injEq _ _).mp hx
                  exact absurd hcolx hene
              · rintro ⟨hclear, _⟩
                have := (hclear s le_rfl (by omega)).2
                rw [ptEmpty, rayPt] at this
                dsimp only at this
                rw [hcell] at this
                exact hemp ((Option.some.injEq _ _).mp this)
    case isFalse hin =>
      cases h
      refine ⟨[], by simp, by simp, ?_⟩
      intro i hi1 hi2
      refine iff_of_false ?_ ?_
      · rintro ⟨m', hm', _⟩
        exact absurd hm' (List.not_mem_nil m')
      · rcases eq_or_lt_of_le hi1 with rfl | hi1'
        · rintro ⟨_, hinb, _⟩
          exact hin hinb
        · rintro ⟨hclear, _⟩
          exact hin (hclear s le_rfl (by omega)).1

/-- The `for d in directions` loop over a concatenated direction list runs
the first block of directions and then the second. -/
theorem scanDirs_append (b : Board) (enemy : PColor) (row col : Int) :
    ∀ (ds1 ds2 : List (Int × Int)) (moves : List Move),
      scanDirs b enemy row col (ds1 ++ ds2) moves =
        (match scanDirs b enemy row col ds1 moves with
         | none => none
         | some ms => scanDirs b enemy row col ds2 ms)
  | [], ds2, moves => by rw [List.nil_append, scanDirs]
  | d :: ds1, ds2, moves => by
    rw [List.cons_append]
    simp only [scanDirs]
    rcases h1 : scanDir b enemy row col d (List.range' 1 7) moves with _ | moves1
    · rfl
    · dsimp only
      exact scanDirs_append b enemy row col ds1 ds2 moves1

/-- Membership characterisation of the outer direction loop: on pairwise
target-disjoint non-zero directions, a ray square of any direction gets a
move if and only if the blocking rules admit it along that direction. -/
theorem scanDirs_mem_iff {b : Board} {enemy : PColor} {row col : Int} :
    ∀ (ds : List (Int × Int)) (moves out : List Move),
      (∀ d ∈ ds, ¬(d.1 = 0 ∧ d.2 = 0)) →
      List.Pairwise (dirTargetsDisjoint row col) ds →
      scanDirs b enemy row col ds moves = some out →
      ∃ new, out = moves ++ new ∧
        (∀ m ∈ new, ∃ d ∈ ds, ∃ k : Nat, 1 ≤ k ∧ k ≤ 7 ∧
          m.endRow = (rayPt row col d k).1 ∧ m.endCol = (rayPt row col d k).2) ∧
        ∀ d ∈ ds, ∀ i : Nat, 1 ≤ i → i ≤ 7 →
          (hitsPt new (rayPt row col d i) ↔
            clearBefore b row col d 1 i ∧ ptInB (rayPt row col d i) ∧
              (ptEmpty b (rayPt row col d i) ∨ ptEnemy b enemy (rayPt row col d i)))
  | [], moves, out, _, _, h => by
    rw [scanDirs] at h
    cases h
    exact ⟨[], by simp, by simp, fun d hd => absurd hd (List.not_mem_nil d)⟩
  | d :: ds, moves, out, hnz, hdisj, h => by
    rw [scanDirs] at h
    rcases h1 : scanDir b enemy row col d (List.range' 1 7) moves with _ | moves1
    · rw [h1] at h; cases h
    · rw [h1] at h
      dsimp only at h
      have hdnz := hnz d (List.mem_cons_self _ _)
      obtain ⟨new1, hout1, hends1, hiff1⟩ := scanDir_mem_iff hdnz 7 1 moves moves1 h1
      obtain ⟨new2, hout2, hends2, hiff2⟩ :=
        scanDirs_mem_iff ds moves1 out
          (fun d' hd' => hnz d' (List.mem_cons_of_mem _ hd'))
          (List.pairwise_cons.mp hdisj).2 h
      refine ⟨new1 ++ new2, by rw [hout2, hout1, List.append_assoc], ?_, ?_⟩
      · intro m hm
        rcases List.mem_append.mp hm with hm1 | hm2
        · obtain ⟨k, hk1, hk2, hk⟩ := hends1 m hm1
          exact ⟨d, List.mem_cons_self _ _, k, hk1, by omega, hk⟩
        · obtain ⟨d', hd', rest⟩ := hends2 m hm2
          exact ⟨d', List.mem_cons_of_mem _ hd', rest⟩
      · intro d' hd' i hi1 hi2
        rcases List.mem_cons.mp hd' with rfl | hd'
        · have hmiss2 : ¬ hitsPt new2 (rayPt row col d' i) := by
            rintro ⟨m, hm, he1, he2⟩
            obtain ⟨d'', hd'', k, hk1, hk2, hk3, hk4⟩ := hends2 m hm
            have hdd := (List.pairwise_cons.mp hdisj).1 d'' hd''
            dsimp only [rayPt] at he1 he2 hk3 hk4
            exact hdd i k hi1 hk1 ⟨he1.symm.trans hk3, he2.symm.trans hk4⟩
          have h1iff := hiff1 i hi1 (by omega)
          constructor
          · rintro ⟨m, hm, he⟩
            rcases List.mem_append.mp hm with hm1 | hm2
            · exact h1iff.mp ⟨m, hm1, he⟩
            · exact absurd ⟨m, hm2, he⟩ hmiss2
          · intro hr
            obtain ⟨m, hm, he⟩ := h1iff.mpr hr
            exact ⟨m, List.mem_append_left _ hm, he⟩
        · have hmiss1 : ¬ hitsPt new1 (rayPt row col d' i) := by
            rintro ⟨m, hm, he1, he2⟩
            obtain ⟨k, hk1, hk2, hk3, hk4⟩ := hends1 m hm
            have hdd := (List.pairwise_cons.mp hdisj).1 d' hd'
            dsimp only [rayPt] at he1 he2 hk3 hk4
            exact hdd k i hk1 hi1 ⟨hk3.symm.trans he1, hk4.symm.trans he2⟩
          have h2iff := hiff2 d' hd' i hi1 hi2
          constructor
          · rintro ⟨m, hm, he⟩
            rcases List.mem_append.mp hm with hm1 | hm2
            · exact absurd ⟨m, hm1, he⟩ hmiss1
            · exact h2iff.mp ⟨m, hm2, he⟩
          · intro hr
            obtain ⟨m, hm, he⟩ := h2iff.mpr hr
            exact ⟨m, List.mem_append_right _ hm, he⟩

/-- C9: every successful sliding-piece direction scan — rook, bishop, and
queen via its delegation to both — includes each empty square passed over,
includes the first enemy-occupied square reached and then stops that
direction, excludes a friendly-occupied square stopping immediately, and
stops at the board edge; formally, each appended move list satisfies the
per-direction membership characterisation `slideChar`. -/
theorem sliding_scan_blocking (b : Board) (w : Bool) (row col : Int)
    (moves : List Move) :
    (∀ out, getRookMoves b w row col moves = some out →
      ∃ new, out = moves ++ new ∧
        slideChar b (if w then PColor.black else PColor.white) row col
          [(-1, 0), (0, -1), (1, 0), (0, 1)] new) ∧
    (∀ out, getBishopMoves b w row col moves = some out →
      ∃ new, out = moves ++ new ∧
        slideChar b (if w then PColor.black else PColor.white) row col
          [(-1, -1), (-1, 1), (1, -1), (1, 1)] new) ∧
    (∀ out, getQueenMoves b w row col moves = some out →
      ∃ new, out = moves ++ new ∧
        slideChar b (if w then PColor.black else PColor.white) row col
          [(-1, 0), (0, -1), (1, 0), (0, 1),
           (-1, -1), (-1, 1), (1, -1), (1, 1)] new) := by
  refine ⟨?_, ?_, ?_⟩
  · intro out h
    rw [getRookMoves] at h
    obtain ⟨new, hout, _, hiff⟩ := scanDirs_mem_iff _ moves out (by decide)
      (rookDirs_disjoint row col) h
    exact ⟨new, hout, hiff⟩
  · intro out h
    rw [getBishopMoves] at h
    obtain ⟨new, hout, _, hiff⟩ := scanDirs_mem_iff _ moves out (by decide)
      (bishopDirs_disjoint row col) h
    exact ⟨new, hout, hiff⟩
  · intro out h
    rw [getQueenMoves] at h
    rcases h1 : getRookMoves b w row col moves with _ | moves1
    · rw [h1] at h; cases h
    · rw [h1] at h
      dsimp only at h
      have hcat : scanDirs b (if w then PColor.black else PColor.white) row col
          ([(-1, 0), (0, -1), (1, 0), (0, 1)] ++
           [(-1, -1), (-1, 1), (1, -1), (1, 1)]) moves = some out := by
        rw [scanDirs_append]
        rw [getRookMoves] at h1
        rw [h1]
        rw [getBishopMoves] at h
        exact h
      have hpair : List.Pairwise (dirTargetsDisjoint row col)
          (([(-1, 0), (0, -1), (1, 0), (0, 1)] : List (Int × Int)) ++
           [(-1, -1), (-1, 1), (1, -1), (1, 1)]) := by
        rw [List.pairwise_append]
        exact ⟨rookDirs_disjoint row col, bishopDirs_disjoint row col,
          rook_bishop_disjoint row col⟩
      obtain ⟨new, hout, _, hiff⟩ := scanDirs_mem_iff _ moves out (by decide)
        hpair hcat
      exact ⟨new, hout, hiff⟩

/-- The white queen-rook square of the initial position: its scan succeeds,
returns no moves, and the returned list satisfies the blocking
characterisation. -/
theorem sliding_scan_blocking_witness :
    getRookMoves initialBoard true 7 0 [] = some [] ∧
    ∃ new, ([] : List Move) = [] ++ new ∧
      slideChar initialBoard PColor.black 7 0
        [(-1, 0), (0, -1), (1, 0), (0, 1)] new :=
  ⟨by rfl, (sliding_scan_blocking initialBoard true 7 0 []).1 [] (by rfl)⟩

/-- On an 8x8 board a move constructor succeeds whenever both squares
index into the board (negative indices down to -8 wrap in Python). -/
theorem mkMove_succeeds {b : Board} (hb : dims8 b = true) (sr sc er ec : Int)
    (h1 : -8 ≤ sr) (h2 : sr < 8) (h3 : -8 ≤ sc) (h4 : sc < 8)
    (h5 : -8 ≤ er) (h6 : er < 8) (h7 : -8 ≤ ec) (h8 : ec < 8) :
    ∃ m, mkMove (sr, sc) (er, ec) b = some m := by
  obtain ⟨pm, hpm⟩ := pyGet_isSome hb h1 h2 h3 h4
  obtain ⟨pc, hpc⟩ := pyGet_isSome hb h5 h6 h7 h8
  refine ⟨⟨sr, sc, er, ec, pm, pc⟩, ?_⟩
  unfold mkMove
  dsimp only
  rw [hpm, hpc]

/-- A direction scan never errors: every destination is bounds-checked
before the board is read. -/
theorem scanDir_succeeds {b : Board} (hb : dims8 b = true) {enemy : PColor}
    {row col : Int} (hr1 : 0 ≤ row) (hr2 : row < 8) (hc1 : 0 ≤ col) (hc2 : col < 8)
    (d : Int × Int) :
    ∀ (ks : List Nat) (moves : List Move),
      ∃ out, scanDir b enemy row col d ks moves = some out
  | [], moves => ⟨moves, rfl⟩
  | k :: ks, moves => by
    rw [scanDir]
    rcases Decidable.em (0 ≤ row + d.1 * (k : Int) ∧ row + d.1 * (k : Int) < 8 ∧
        0 ≤ col + d.2 * (k : Int) ∧ col + d.2 * (k : Int) < 8) with hin | hin
    · rw [if_pos hin]
      obtain ⟨hr1', hr2', hc1', hc2'⟩ := hin
      obtain ⟨x, hx⟩ := pyGet_isSome hb (by omega) hr2' (by omega) hc2'
      rw [hx]
      dsimp only
      rcases Decidable.em (x = Cell.empty) with hemp | hemp
      · rw [if_pos hemp]
        obtain ⟨m, hm⟩ := mkMove_succeeds hb row col
          (row + d.1 * (k : Int)) (col + d.2 * (k : Int))
          (by omega) (by omega) (by omega) (by omega)
          (by omega) (by omega) (by omega) (by omega)
        rw [hm]
        exact scanDir_succeeds hb hr1 hr2 hc1 hc2 d ks (moves ++ [m])
      · rw [if_neg hemp]
        rcases Decidable.em (x.hasColor enemy = true) with hene | hene
        · rw [if_pos hene]
          obtain ⟨m, hm⟩ := mkMove_succeeds hb row col
            (row + d.1 * (k : Int)) (col + d.2 * (k : Int))
            (by omega) (by omega) (by omega) (by omega)
            (by omega) (by omega) (by omega) (by omega)
          rw [hm]
          exact ⟨moves ++ [m], rfl⟩
        · rw [if_neg hene]
          exact ⟨moves, rfl⟩
    · rw [if_neg hin]
      exact ⟨moves, rfl⟩

/-- The outer direction loop never errors. -/
theorem scanDirs_succeeds {b : Board} (hb : dims8 b = true) {enemy : PColor}
    {row col : Int} (hr1 : 0 ≤ row) (hr2 : row < 8) (hc1 : 0 ≤ col) (hc2 : col < 8) :
    ∀ (ds : List (Int × Int)) (moves : List Move),
      ∃ out, scanDirs b enemy row col ds moves = some out
  | [], moves => ⟨moves, rfl⟩
  | d :: ds, moves => by
    rw [scanDirs]
    obtain ⟨m1, hm1⟩ := scanDir_succeeds hb hr1 hr2 hc1 hc2 d (List.range' 1 7) moves
    rw [hm1]
    exact scanDirs_succeeds hb hr1 hr2 hc1 hc2 ds m1

/-- The knight/king offset loop never errors: every destination is
bounds-checked before the board is read. -/
theorem offsetMoves_succeeds {b : Board} (hb : dims8 b = true) {ally : PColor}
    {row col : Int} (hr1 : 0 ≤ row) (hr2 : row < 8) (hc1 : 0 ≤ col) (hc2 : col < 8) :
    ∀ (os : List (Int × Int)) (moves : List Move),
      ∃ out, offsetMoves b ally row col os moves = some out
  | [], moves => ⟨moves, rfl⟩
  | o :: os, moves => by
    rw [offsetMoves]
    rcases Decidable.em (0 ≤ row + o.1 ∧ row + o.1 < 8 ∧
        0 ≤ col + o.2 ∧ col + o.2 < 8) with hin | hin
    · rw [if_pos hin]
      obtain ⟨hr1', hr2', hc1', hc2'⟩ := hin
      obtain ⟨x, hx⟩ := pyGet_isSome hb (by omega) hr2' (by omega) hc2'
      rw [hx]
      dsimp only
      rcases Decidable.em (x.hasColor ally = true) with hall | hall
      · rw [if_pos hall]
        exact offsetMoves_succeeds hb hr1 hr2 hc1 hc2 os moves
      · rw [if_neg hall]
        obtain ⟨m, hm⟩ := mkMove_succeeds hb row col (row + o.1) (col + o.2)
          (by omega) (by omega) (by omega) (by omega)
          (by omega) (by omega) (by omega) (by omega)
        rw [hm]
        exact offsetMoves_succeeds hb hr1 hr2 hc1 hc2 os (moves ++ [m])
    · rw [if_neg hin]
      exact offsetMoves_succeeds hb hr1 hr2 hc1 hc2 os moves

/-- The pawn forward phase succeeds whenever the unchecked rows it reads
happen to index into the board. -/
theorem pawnFwd_succeeds {b : Board} (hb : dims8 b = true) (dir startRank : Int)
    {row col : Int} (hr1 : 0 ≤ row) (hr2 : row < 8) (hc1 : 0 ≤ col) (hc2 : col < 8)
    (hone : -8 ≤ row + dir ∧ row + dir < 8)
    (htwo : row = startRank → -8 ≤ row + 2 * dir ∧ row + 2 * dir < 8)
    (moves : List Move) :
    ∃ out, pawnFwd b dir startRank row col moves = some out := by
  unfold pawnFwd
  obtain ⟨fwd, hfwd⟩ := pyGet_isSome hb hone.1 hone.2
    (show (-8 : Int) ≤ col by omega) (show col < 8 by omega)
  rw [hfwd]
  dsimp only
  rcases Decidable.em (fwd = Cell.empty) with hemp | hemp
  · rw [if_pos hemp]
    obtain ⟨m, hm⟩ := mkMove_succeeds hb row col (row + dir) col
      (by omega) (by omega) (by omega) (by omega)
      (by omega) (by omega) (by omega) (by omega)
    rw [hm]
    dsimp only
    rcases Decidable.em (row = startRank) with hsr | hsr
    · rw [if_pos hsr]
      have h2 := htwo hsr
      obtain ⟨fwd2, hfwd2⟩ := pyGet_isSome hb h2.1 h2.2
        (show (-8 : Int) ≤ col by omega) (show col < 8 by omega)
      rw [hfwd2]
      dsimp only
      rcases Decidable.em (fwd2 = Cell.empty) with hemp2 | hemp2
      · rw [if_pos hemp2]
        obtain ⟨m2, hm2⟩ := mkMove_succeeds hb row col (row + 2 * dir) col
          (by omega) (by omega) (by omega) (by omega)
          (by omega) (by omega) (by omega) (by omega)
        rw [hm2]
        exact ⟨_, rfl⟩
      · rw [if_neg hemp2]
        exact ⟨_, rfl⟩
    · rw [if_neg hsr]
      exact ⟨_, rfl⟩
  · rw [if_neg hemp]
    exact ⟨_, rfl⟩

/-- The left-capture phase succeeds whenever the unchecked capture row
indexes into the board (the column is guarded in the source). -/
theorem pawnCapL_succeeds {b : Board} (hb : dims8 b = true) (enemy : PColor)
    (dir : Int) {row col : Int}
    (hr1 : 0 ≤ row) (hr2 : row < 8) (hc1 : 0 ≤ col) (hc2 : col < 8)
    (hone : -8 ≤ row + dir ∧ row + dir < 8) (moves : List Move) :
    ∃ out, pawnCapL b enemy dir row col moves = some out := by
  unfold pawnCapL
  rcases Decidable.em (0 ≤ col - 1) with hg | hg
  · rw [if_pos hg]
    obtain ⟨sq, hsq⟩ := pyGet_isSome hb hone.1 hone.2
      (show (-8 : Int) ≤ col - 1 by omega) (show col - 1 < 8 by omega)
    rw [hsq]
    dsimp only
    rcases Decidable.em (sq.hasColor enemy = true) with hen | hen
    · rw [if_pos hen]
      obtain ⟨m, hm⟩ := mkMove_succeeds hb row col (row + dir) (col - 1)
        (by omega) (by omega) (by omega) (by omega)
        (by omega) (by omega) (by omega) (by omega)
      rw [hm]
      exact ⟨_, rfl⟩
    · rw [if_neg hen]
      exact ⟨_, rfl⟩
  · rw [if_neg hg]
    exact ⟨_, rfl⟩

/-- The right-capture phase succeeds whenever the unchecked capture row
indexes into the board. -/
theorem pawnCapR_succeeds {b : Board} (hb : dims8 b = true) (enemy : PColor)
    (dir : Int) {row col : Int}
    (hr1 : 0 ≤ row) (hr2 : row < 8) (hc1 : 0 ≤ col) (hc2 : col < 8)
    (hone : -8 ≤ row + dir ∧ row + dir < 8) (moves : List Move) :
    ∃ out, pawnCapR b enemy dir row col moves = some out := by
  unfold pawnCapR
  rcases Decidable.em (col + 1 ≤ 7) with hg | hg
  · rw [if_pos hg]
    obtain ⟨sq, hsq⟩ := pyGet_isSome hb hone.1 hone.2
      (show (-8 : Int) ≤ col + 1 by omega) (show col + 1 < 8 by omega)
    rw [hsq]
    dsimp only
    rcases Decidable.em (sq.hasColor enemy = true) with hen | hen
    · rw [if_pos hen]
      obtain ⟨m, hm⟩ := mkMove_succeeds hb row col (row + dir) (col + 1)
        (by omega) (by omega) (by omega) (by omega)
        (by omega) (by omega) (by omega) (by omega)
      rw [hm]
      exact ⟨_, rfl⟩
    · rw [if_neg hen]
      exact ⟨_, rfl⟩
  · rw [if_neg hg]
    exact ⟨_, rfl⟩

/-- The pawn generator on an in-range square of an 8x8 board succeeds
exactly when the side is white or the row is below 7: a black pawn on row
7 reads row 8 and errors, while a white pawn on row 0 reads row -1, which
wraps silently under Python indexing instead of erroring. -/
theorem getPawnMoves_succeeds_iff {b : Board} (hb : dims8 b = true) {w : Bool}
    {row col : Int} (hr1 : 0 ≤ row) (hr2 : row < 8) (hc1 : 0 ≤ col) (hc2 : col < 8)
    (moves : List Move) :
    (∃ out, getPawnMoves b w row col moves = some out) ↔ (w = true ∨ row < 7) := by
  constructor
  · rintro ⟨out, hout⟩
    cases w
    · right
      by_contra hcon
      have hrow7 : row = 7 := by omega
      subst hrow7
      rw [getPawnMoves, if_neg (by decide : ¬(false = true))] at hout
      have hnone : pawnFwd b 1 1 7 col moves = none := by
        unfold pawnFwd
        rw [pyGet_none_of_row hb (by omega)]
      rw [hnone] at hout
      cases hout
    · exact Or.inl rfl
  · intro hw
    cases w
    · rcases hw with hw | hrow
      · exact absurd hw (by decide)
      · rw [getPawnMoves, if_neg (by decide : ¬(false = true))]
        obtain ⟨m1, hm1⟩ := pawnFwd_succeeds hb 1 1 hr1 hr2 hc1 hc2
          ⟨by omega, by omega⟩ (fun hsr => ⟨by omega, by omega⟩) moves
        rw [hm1]
        dsimp only
        obtain ⟨m2, hm2⟩ := pawnCapL_succeeds hb PColor.white 1 hr1 hr2 hc1 hc2
          ⟨by omega, by omega⟩ m1
        rw [hm2]
        dsimp only
        exact pawnCapR_succeeds hb PColor.white 1 hr1 hr2 hc1 hc2
          ⟨by omega, by omega⟩ m2
    · rw [getPawnMoves, if_pos rfl]
      obtain ⟨m1, hm1⟩ := pawnFwd_succeeds hb (-1) 6 hr1 hr2 hc1 hc2
        ⟨by omega, by omega⟩ (fun hsr => ⟨by omega, by omega⟩) moves
      rw [hm1]
      dsimp only
      obtain ⟨m2, hm2⟩ := pawnCapL_succeeds hb PColor.black (-1) hr1 hr2 hc1 hc2
        ⟨by omega, by omega⟩ m1
      rw [hm2]
      dsimp only
      exact pawnCapR_succeeds hb PColor.black (-1) hr1 hr2 hc1 hc2
        ⟨by omega, by omega⟩ m2

/-- C1 (amended): on an 8x8 board and an in-range source square, the
rook, knight, bishop, queen and king generators never perform an
out-of-bounds board access — every destination is bounds-checked before
the board is read — but the pawn generator reads the row one step ahead
unchecked: it errors for black on row 7, and for white on row 0 it reads
row -1, which wraps to row 7 under Python indexing rather than erroring.
It therefore succeeds exactly when the side is white or the row is below
7, refuting the unqualified claim for `getPawnMoves`. -/
theorem generator_bounds_amended (b : Board) (w : Bool) (row col : Int)
    (moves : List Move) (hb : dims8 b = true)
    (hr1 : 0 ≤ row) (hr2 : row < 8) (hc1 : 0 ≤ col) (hc2 : col < 8) :
    (∃ out, getRookMoves b w row col moves = some out) ∧
    (∃ out, getKnightMoves b w row col moves = some out) ∧
    (∃ out, getBishopMoves b w row col moves = some out) ∧
    (∃ out, getQueenMoves b w row col moves = some out) ∧
    (∃ out, getKingMoves b w row col moves = some out) ∧
    ((∃ out, getPawnMoves b w row col moves = some out) ↔ (w = true ∨ row < 7)) := by
  refine ⟨?_, ?_, ?_, ?_, ?_, ?_⟩
  · exact scanDirs_succeeds hb hr1 hr2 hc1 hc2 _ moves
  · exact offsetMoves_succeeds hb hr1 hr2 hc1 hc2 _ moves
  · exact scanDirs_succeeds hb hr1 hr2 hc1 hc2 _ moves
  · rw [getQueenMoves]
    obtain ⟨m1, hm1⟩ := scanDirs_succeeds hb hr1 hr2 hc1 hc2
      ([(-1, 0), (0, -1), (1, 0), (0, 1)] : List (Int × Int)) moves
    rw [getRookMoves, hm1]
    exact scanDirs_succeeds hb hr1 hr2 hc1 hc2 _ m1
  · exact offsetMoves_succeeds hb hr1 hr2 hc1 hc2 _ moves
  · exact getPawnMoves_succeeds_iff hb hr1 hr2 hc1 hc2 moves

/-- The amended bounds statement instantiated on the initial position:
the white pawn on (6, 0) is generated without error. -/
theorem generator_bounds_amended_witness :
    dims8 initialBoard = true ∧
    (∃ out, getPawnMoves initialBoard true 6 0 [] = some out) :=
  ⟨by rfl,
    (generator_bounds_amended initialBoard true 6 0 [] (by rfl)
      (by decide) (by decide) (by decide) (by decide)).2.2.2.2.2.mpr (Or.inl rfl)⟩

/-- C2: a candidate of `getAllPossibleMoves` is kept by `getValidMoves`
exactly when its simulation reports the acting side's king not attacked
(`exposed gs m = some false`); and concretely, in the pinned-bishop
position `pinState` the bishop's pseudo-legal step to (5,3) is generated
but absent from the returned legal-move list. -/
theorem legality_filter_iff :
    (∀ gs ms gsv, dims8 gs.board = true → kingLocsOK gs = true →
      getValidMoves gs = some (ms, gsv) →
      ∃ cand, getAllPossibleMoves gs = some cand ∧
        ∀ m ∈ cand, (m ∈ ms ↔ exposed gs m = some false)) ∧
    (getAllPossibleMoves pinState = some candPin ∧
      getValidMoves pinState = some (validPin, pinState) ∧
      pinMove ∈ candPin ∧ pinMove ∉ validPin) := by
  constructor
  · intro gs ms gsv hb hk hv
    obtain ⟨cand, hcand, hflt, _, _, _, _, _⟩ := getValidMoves_spec hb hk hv
    refine ⟨cand, hcand, ?_⟩
    intro m hm
    rw [hflt, List.mem_filter]
    constructor
    · rintro ⟨_, hkeep⟩
      exact keepB_iff.mp hkeep
    · intro hexp
      exact ⟨hm, keepB_iff.mpr hexp⟩
  · exact ⟨by rfl, by rfl, by decide, by decide⟩

set_option maxRecDepth 100000 in
/-- C3: when `getValidMoves` returns an empty list it sets `checkMate` if
the side to move is in check on the unmodified state and `staleMate`
otherwise; a non-empty return clears both flags.  After 1. f3 e5 2. g4
Qh4 white has no legal moves and `checkMate` is set, `staleMate` not. -/
theorem mate_stale_flags :
    (∀ gs ms gsv, dims8 gs.board = true → kingLocsOK gs = true →
      getValidMoves gs = some (ms, gsv) →
      (ms = [] → ∃ chk, inCheck gs = some (chk, gs) ∧
        gsv = (if chk then { gs with checkMate := true }
               else { gs with staleMate := true })) ∧
      (ms ≠ [] → gsv = { gs with checkMate := false, staleMate := false })) ∧
    (foldSteps initialGameState foolSteps = some foolState ∧
     ∃ gsf, getValidMoves foolState = some ([], gsf) ∧
       gsf.checkMate = true ∧ gsf.staleMate = false) := by
  constructor
  · intro gs ms gsv hb hk hv
    obtain ⟨cand, _, _, _, _, _, hemp, hne⟩ := getValidMoves_spec hb hk hv
    exact ⟨hemp, hne⟩
  · exact ⟨foolSteps_plays, _, by rfl, rfl, rfl⟩

/-- C4: committing any legal move with `makeMove` and then calling
`undoMove` restores the board, the side-to-move flag and both
king-location fields to their pre-move values and leaves the length of
the move log unchanged. -/
theorem make_undo_round_trip {gs gsv gs1 : GameState} {ms : List Move} {m : Move}
    (hb : dims8 gs.board = true) (hk : kingLocsOK gs = true)
    (hv : getValidMoves gs = some (ms, gsv)) (hm : m ∈ ms)
    (hmk : makeMove gsv m = some gs1) :
    ∃ gs2, undoMove gs1 = some gs2 ∧
      gs2.board = gsv.board ∧ gs2.whiteToMove = gsv.whiteToMove ∧
      gs2.whiteKingLocation = gsv.whiteKingLocation ∧
      gs2.blackKingLocation = gsv.blackKingLocation ∧
      gs2.moveLog.length = gsv.moveLog.length := by
  obtain ⟨cand, hcand, hflt, hok, hpw, hsucc, hemp, hne⟩ := getValidMoves_spec hb hk hv
  have hmne : ms ≠ [] := by
    intro h0
    rw [h0] at hm
    exact absurd hm (List.not_mem_nil m)
  have hgsv : gsv = { gs with checkMate := false, staleMate := false } := hne hmne
  have hmc : m ∈ cand := by
    rw [hflt] at hm
    exact (List.mem_filter.mp hm).1
  obtain ⟨h1, h2, h3, h4, h5, h6, h7, h8, h9, h10⟩ := hok m hmc
  have hbv : dims8 gsv.board = true := by rw [hgsv]; exact hb
  have hkv : kingLocsOK gsv = true := by rw [hgsv]; exact hk
  have h9v : pyGet gsv.board m.startRow m.startCol = some m.pieceMoved := by
    rw [hgsv]; exact h9
  have h10v : pyGet gsv.board m.endRow m.endCol = some m.pieceCaptured := by
    rw [hgsv]; exact h10
  have hcons := kingConsist hbv hkv h1 h2 h3 h4 h9v
  exact ⟨gsv, make_undo hbv h1 h2 h3 h4 h9v h10v hcons.1 hcons.2 hmk,
    rfl, rfl, rfl, rfl, rfl⟩

set_option maxRecDepth 100000 in
/-- The round trip instantiated on the initial position and the a-pawn's
single advance. -/
theorem make_undo_round_trip_witness :
    dims8 initialGameState.board = true ∧ kingLocsOK initialGameState = true ∧
    getValidMoves initialGameState = some (validInit, initialGameState) ∧
    mvA3 ∈ validInit ∧
    ∃ gs1, makeMove initialGameState mvA3 = some gs1 ∧
      ∃ gs2, undoMove gs1 = some gs2 ∧
        gs2.board = initialGameState.board ∧
        gs2.whiteToMove = initialGameState.whiteToMove ∧
        gs2.whiteKingLocation = initialGameState.whiteKingLocation ∧
        gs2.blackKingLocation = initialGameState.blackKingLocation ∧
        gs2.moveLog.length = initialGameState.moveLog.length :=
  ⟨rfl, rfl, by rfl, by decide, _, rfl,
    @make_undo_round_trip initialGameState initialGameState _ validInit mvA3
      rfl rfl (by rfl) (by decide) rfl⟩

/-- C5 (amended): the king-location invariant holds in the initial state;
it is preserved by `makeMove` for a snapshotted in-window candidate
provided the move does not capture a king and, when the moved piece is a
king, the destination row is nonnegative; and `undoMove` right after such
a `makeMove` restores the previous state exactly, hence also the
invariant.  The side conditions are necessary:
`kingLoc_invariant_counterexample` exhibits a pseudo-legal king capture —
simulated by the very loop of `getValidMoves` — after which the invariant
is false, refuting the unqualified preservation claim. -/
theorem kingLoc_invariant_amended :
    kingLocsOK initialGameState = true ∧
    (∀ gs m gs1, dims8 gs.board = true → kingLocsOK gs = true →
      CandOK gs m →
      ((m.pieceMoved = wKing ∨ m.pieceMoved = bKing) → 0 ≤ m.endRow) →
      m.pieceCaptured ≠ wKing → m.pieceCaptured ≠ bKing →
      makeMove gs m = some gs1 → kingLocsOK gs1 = true) ∧
    (∀ gs m gs1, dims8 gs.board = true → kingLocsOK gs = true →
      CandOK gs m → makeMove gs m = some gs1 → undoMove gs1 = some gs) := by
  refine ⟨by rfl, ?_, ?_⟩
  · intro gs m gs1 hb hk hok hker hnc1 hnc2 hmk
    obtain ⟨h1, h2, h3, h4, h5, h6, h7, h8, h9, h10⟩ := hok
    exact kingLocsOK_makeMove hb hk h1 h2 h3 h4 h5 h6 h7 h8 hker h9 h10 hnc1 hnc2 hmk
  · intro gs m gs1 hb hk hok hmk
    obtain ⟨h1, h2, h3, h4, h5, h6, h7, h8, h9, h10⟩ := hok
    have hcons := kingConsist hb hk h1 h2 h3 h4 h9
    exact make_undo hb h1 h2 h3 h4 h9 h10 hcons.1 hcons.2 hmk

/-- The unqualified C5 is refuted: in `knightCapState` the invariant
holds, the knight's pseudo-legal capture of the black king is among the
generated candidates, and `makeMove` on it leaves a state whose
`blackKingLocation` points at a square no longer holding a black king. -/
theorem kingLoc_invariant_counterexample :
    kingLocsOK knightCapState = true ∧
    getAllPossibleMoves knightCapState = some candKnightCap ∧
    knightCapMove ∈ candKnightCap ∧
    ∃ gs1, makeMove knightCapState knightCapMove = some gs1 ∧
      kingLocsOK gs1 = false :=
  ⟨by rfl, by rfl, by decide, _, rfl, by rfl⟩

/-- C6: `squareUnderAttack` returns the state unchanged (the two flips of
the side-to-move flag cancel) together with the attack bit, true exactly
when some opponent pseudo-legal move ends on the queried square; and
`getValidMoves`, whose loop mutates the state through nested
make/flip/check/undo simulation, returns a state agreeing with its input
on board, side to move, move log and both king locations. -/
theorem frame_effects :
    (∀ gs (row col : Int) att gs2,
      squareUnderAttack gs row col = some (att, gs2) →
      gs2 = gs ∧
      ∃ opp, getAllPossibleMoves { gs with whiteToMove := !gs.whiteToMove } = some opp ∧
        (att = true ↔ ∃ m ∈ opp, m.endRow = row ∧ m.endCol = col)) ∧
    (∀ gs ms gsv, dims8 gs.board = true → kingLocsOK gs = true →
      getValidMoves gs = some (ms, gsv) →
      gsv.board = gs.board ∧ gsv.whiteToMove = gs.whiteToMove ∧
      gsv.moveLog = gs.moveLog ∧ gsv.whiteKingLocation = gs.whiteKingLocation ∧
      gsv.blackKingLocation = gs.blackKingLocation) := by
  constructor
  · intro gs row col att gs2 h
    exact squareUnderAttack_some h
  · intro gs ms gsv hb hk hv
    obtain ⟨cand, _, _, _, _, _, hemp, hne⟩ := getValidMoves_spec hb hk hv
    rcases Decidable.em (ms = []) with he | he
    · obtain ⟨chk, _, hgsv⟩ := hemp he
      cases chk
      · rw [if_neg (by simp)] at hgsv
        rw [hgsv]
        exact ⟨rfl, rfl, rfl, rfl, rfl⟩
      · rw [if_pos rfl] at hgsv
        rw [hgsv]
        exact ⟨rfl, rfl, rfl, rfl, rfl⟩
    · rw [hne he]
      exact ⟨rfl, rfl, rfl, rfl, rfl⟩

set_option maxRecDepth 100000 in
/-- C7: the freshly constructed game state admits exactly twenty legal
moves for white: per pawn one single and one double advance (sixteen
moves in all) and four knight moves. -/
theorem initial_twenty_moves :
    ∃ gsv, getValidMoves initialGameState = some (validInit, gsv) ∧
      validInit.length = 20 ∧
      (∀ m ∈ validInit, m.pieceMoved = wp ∨ m.pieceMoved = wN) ∧
      validInit.countP
        (fun m => m.pieceMoved == wp && m.endRow == m.startRow - 1 &&
          m.endCol == m.startCol) = 8 ∧
      validInit.countP
        (fun m => m.pieceMoved == wp && m.endRow == m.startRow - 2 &&
          m.endCol == m.startCol) = 8 ∧
      validInit.countP (fun m => m.pieceMoved == wN) = 4 :=
  ⟨initialGameState, by rfl, by decide, by decide, by decide, by decide, by decide⟩

/-- C8: on coordinates in 0..7, `Move.__eq__` holds exactly when the
derived identifiers match, and exactly when the four coordinates agree —
independently of the `pieceMoved`/`pieceCaptured` snapshots, so the
identifier is injective on such coordinate tuples and the sole basis of
equality. -/
theorem move_identity (m n : Move)
    (hm : 0 ≤ m.startRow ∧ m.startRow < 8 ∧ 0 ≤ m.startCol ∧ m.startCol < 8 ∧
          0 ≤ m.endRow ∧ m.endRow < 8 ∧ 0 ≤ m.endCol ∧ m.endCol < 8)
    (hn : 0 ≤ n.startRow ∧ n.startRow < 8 ∧ 0 ≤ n.startCol ∧ n.startCol < 8 ∧
          0 ≤ n.endRow ∧ n.endRow < 8 ∧ 0 ≤ n.endCol ∧ n.endCol < 8) :
    (moveBeq m n = true ↔ m.moveID = n.moveID) ∧
    (moveBeq m n = true ↔
      m.startRow = n.startRow ∧ m.startCol = n.startCol ∧
      m.endRow = n.endRow ∧ m.endCol = n.endCol) := by
  have hid : moveBeq m n = true ↔ m.moveID = n.moveID := by
    unfold moveBeq
    exact beq_iff_eq
  refine ⟨hid, hid.trans ?_⟩
  constructor
  · intro h
    exact moveID_inj
      ⟨hm.1, hm.2.1, hm.2.2.1, hm.2.2.2.1, by omega,
        hm.2.2.2.2.2.1, hm.2.2.2.2.2.2.1, hm.2.2.2.2.2.2.2⟩
      ⟨hn.1, hn.2.1, hn.2.2.1, hn.2.2.2.1, by omega,
        hn.2.2.2.2.2.1, hn.2.2.2.2.2.2.1, hn.2.2.2.2.2.2.2⟩ h
  · rintro ⟨h1, h2, h3, h4⟩
    unfold Move.moveID
    rw [h1, h2, h3, h4]

/-- Identifier-based equality on two concrete moves sharing coordinates
but differing in both piece snapshots. -/
theorem move_identity_witness :
    (moveBeq mwitA mwitB = true ↔ Move.moveID mwitA = Move.moveID mwitB) ∧
    (moveBeq mwitA mwitB = true ↔
      mwitA.startRow = mwitB.startRow ∧ mwitA.startCol = mwitB.startCol ∧
      mwitA.endRow = mwitB.endRow ∧ mwitA.endCol = mwitB.endCol) :=
  move_identity mwitA mwitB (by decide) (by decide)

/-- C10: on any reachable state, no two pseudo-legal candidates share a
derived identifier, so the `moves.remove(moves[i])` call of
`getValidMoves` — which deletes the first element equal under
identifier-based equality — deletes exactly the occurrence that was just
simulated. -/
theorem no_duplicate_moveIDs {gs : GameState} (h : Reachable gs) :
    ∀ cand, getAllPossibleMoves gs = some cand →
      cand.Pairwise (fun m n => m.moveID ≠ n.moveID) ∧
      ∀ (p rest : List Move) (m : Move), cand = p ++ m :: rest →
        removeFirst cand m = some (p ++ rest) := by
  intro cand hcand
  have hb := reachable_dims8 h
  unfold getAllPossibleMoves at hcand
  obtain ⟨hpw, _⟩ := allMovesCore_spec hb hcand
  refine ⟨hpw, ?_⟩
  intro p rest m hsplit
  rw [hsplit]
  apply removeFirst_eq
  intro x hx
  have hpw2 := hsplit ▸ hpw
  rw [List.pairwise_append] at hpw2
  have hne := hpw2.2.2 x hx m (List.mem_cons_self _ _)
  unfold moveBeq
  exact beq_eq_false_iff_ne.mpr hne

set_option maxRecDepth 100000 in
/-- Distinct identifiers and exact removal on the initial position's
twenty candidates. -/
theorem no_duplicate_moveIDs_witness :
    Reachable initialGameState ∧
    getAllPossibleMoves initialGameState = some validInit ∧
    (validInit.Pairwise (fun m n => m.moveID ≠ n.moveID) ∧
      ∀ (p rest : List Move) (m : Move), validInit = p ++ m :: rest →
        removeFirst validInit m = some (p ++ rest)) :=
  ⟨Reachable.init, by rfl, no_duplicate_moveIDs Reachable.init validInit (by rfl)⟩
